import Mathlib

/-!
Verification development for the semantic-tag-increment package.

The Python modules semantic_tag_increment/parser.py and
semantic_tag_increment/incrementer.py are shallowly embedded here.
Python strings are modelled as lists of characters, Python ints as Nat
(arbitrary precision), optional strings as Option, raised exceptions as
an Except error value, and the regex-based parser as an equivalent
deterministic recursive-descent matcher.  All character classes that
matter (digits, identifier characters) are ASCII, matching the re.ASCII
flag on the compiled pattern in parser.py.
-/

set_option maxHeartbeats 1000000
set_option maxRecDepth 4000

namespace SemTag

/-! ### Character and string primitives (Python str operations) -/

/-- Model of the Python whitespace class used by str.strip (ASCII part). -/
def pyIsSpace (c : Char) : Bool :=
  c = ' ' || c = '\t' || c = '\n' || c = '\r' || c = '\x0b' || c = '\x0c'

/-- Model of Python str.strip(): drop whitespace from both ends. -/
def pyStrip (s : List Char) : List Char :=
  ((s.dropWhile pyIsSpace).reverse.dropWhile pyIsSpace).reverse

/-- Model of Python str.lower() restricted to ASCII letters, which is the
only case exercised by the version grammar. -/
def lowerStr (s : List Char) : List Char := s.map Char.toLower

/-- Value of an ASCII digit character. -/
def digitVal (c : Char) : Nat := c.toNat - 48

/-- Model of Python int() on a string of ASCII digits. -/
def toNatDigits (s : List Char) : Nat := s.foldl (fun a c => a * 10 + digitVal c) 0

/-- Decimal digit character for a value below ten. -/
def digitChar (n : Nat) : Char := Char.ofNat (48 + n)

/-- Fuel-driven decimal rendering helper; the fuel always dominates the
argument at call sites, making the zero-fuel branch unreachable. -/
def natStrAux (fuel : Nat) (n : Nat) : List Char :=
  match fuel with
  | 0 => []
  | f + 1 => if n < 10 then [digitChar n] else natStrAux f (n / 10) ++ [digitChar (n % 10)]

/-- Model of Python str() on a non-negative int: canonical decimal digits. -/
def natStr (n : Nat) : List Char := natStrAux (n + 1) n

/-- Model of Python str.isdigit() on the ASCII strings produced by the
version grammar: non-empty and all ASCII digits. -/
def isdigitL (s : List Char) : Bool := !s.isEmpty && s.all Char.isDigit

/-- Model of the Python lexicographic string comparison s < t (code points). -/
def pyStrLt : List Char → List Char → Bool
  | _, [] => false
  | [], _ :: _ => true
  | x :: xs, y :: ys => if x < y then true else if y < x then false else pyStrLt xs ys

/-- Model of Python str.split on a dot separator. -/
def splitDot : List Char → List (List Char)
  | [] => [[]]
  | c :: r =>
    if c = '.' then [] :: splitDot r
    else
      match splitDot r with
      | h :: t => (c :: h) :: t
      | [] => [[c]]

/-- Model of Python str.join with a dot separator. -/
def joinDot : List (List Char) → List Char
  | [] => []
  | [x] => x
  | x :: y :: t => x ++ '.' :: joinDot (y :: t)

/-- Trailing run of ASCII digits of a string, as matched by the regex
searching for a final numeral in parser.py and incrementer.py. -/
def trailingDigits (s : List Char) : List Char := (s.reverse.takeWhile Char.isDigit).reverse

/-- The string with its trailing run of ASCII digits removed; models the
regex substitution that replaces a final numeral. -/
def dropTrailingDigits (s : List Char) : List Char := (s.reverse.dropWhile Char.isDigit).reverse

/-! ### Data model: SemanticVersion (parser.py) -/

/-- Embedding of the frozen dataclass SemanticVersion.  The field pfx
models the stored v/V display marker captured from the original text. -/
structure SemanticVersion where
  major : Nat
  minor : Nat
  patch : Nat
  prerelease : Option (List Char) := none
  metadata : Option (List Char) := none
  pfx : List Char := []
deriving DecidableEq, Repr

/-- Python truthiness of an optional string field. -/
def optTruthy : Option (List Char) → Bool
  | some s => !s.isEmpty
  | none => false

/-! ### Parsing (SemanticVersion.parse and the compiled SEMVER_PATTERN)

The regex is anchored and, on the strings it accepts, deterministic: each
numeric field is a maximal digit run followed by a mandatory literal, the
pre-release segment extends to the first plus sign or the end, and the
metadata segment is the remainder.  The matcher below realises exactly
that decomposition. -/

/-- One numeric field of the grammar: a digit run with no leading zero
except the literal zero itself (regex alternative 0|[1-9] digits). -/
def numFieldOk : List Char → Bool
  | [] => false
  | c :: rest =>
    if c = '0' then rest.isEmpty else c.isDigit && rest.all Char.isDigit

/-- Character class of pre-release and metadata identifiers:
ASCII alphanumerics and hyphen. -/
def identChar (c : Char) : Bool := c.isAlphanum || c = '-'

/-- A dot-separated identifier chain: every dot-separated part is
non-empty and drawn from the identifier character class. -/
def dottedIdentsOk (s : List Char) : Bool :=
  (splitDot s).all fun part => !part.isEmpty && part.all identChar

/-- The optional pre-release and metadata tail of the grammar, parsed
from the remainder that follows the numeric core.  The pre-release
segment is the maximal run before a plus sign, as the regex identifier
class excludes the plus sign. -/
def matchTail (rest : List Char) : Option (Option (List Char) × Option (List Char)) :=
  match rest with
  | [] => some (none, none)
  | c :: rr =>
    if c = '-' then
      let pre := rr.takeWhile (· ≠ '+')
      let rest2 := rr.dropWhile (· ≠ '+')
      if dottedIdentsOk pre then
        match rest2 with
        | [] => some (some pre, none)
        | c2 :: mm =>
          if c2 = '+' then
            if dottedIdentsOk mm then some (some pre, some mm) else none
          else none
      else none
    else if c = '+' then
      if dottedIdentsOk rr then some (none, some rr) else none
    else none

/-- Matcher for the part of the grammar after the optional v/V marker:
three numeric fields separated by dots, then the optional tail. -/
def matchBody (body : List Char) (pfx : List Char) : Option SemanticVersion :=
  let core := body.takeWhile fun c => !(c = '-' || c = '+')
  let rest := body.dropWhile fun c => !(c = '-' || c = '+')
  match splitDot core with
  | [majS, minS, patS] =>
    if numFieldOk majS && numFieldOk minS && numFieldOk patS then
      match matchTail rest with
      | some (pre?, meta?) =>
        some ⟨toNatDigits majS, toNatDigits minS, toNatDigits patS, pre?, meta?, pfx⟩
      | none => none
    else none
  | _ => none

/-- Core matcher for the anchored semver regex on an already-stripped
string: optional v/V marker, three numeric fields, optional pre-release
chain after a hyphen, optional metadata chain after a plus sign. -/
def matchSemver (t : List Char) : Option SemanticVersion :=
  match t with
  | [] => matchBody [] []
  | c :: r => if c = 'v' ∨ c = 'V' then matchBody r [c] else matchBody (c :: r) []

/-- Embedding of SemanticVersion.parse.  All raising branches (empty
input, the two length guards, no regex match) collapse to none; the
length guard on the raw input runs before any stripping or matching. -/
def parse (s : List Char) : Option SemanticVersion :=
  if s = [] then none
  else if 1000 < s.length then none
  else
    let t := pyStrip s
    if 1000 < t.length then none
    else matchSemver t

/-! ### Formatting (to_string, numeric_version) -/

/-- Embedding of SemanticVersion.to_string.  The pre-release and metadata
segments are appended under Python truthiness, and the stored v/V marker
is prepended only on request. -/
def to_string (v : SemanticVersion) (withPfx : Bool) : List Char :=
  let s := natStr v.major ++ '.' :: natStr v.minor ++ '.' :: natStr v.patch
  let s := match v.prerelease with
    | some p => if p.isEmpty then s else s ++ '-' :: p
    | none => s
  let s := match v.metadata with
    | some m => if m.isEmpty then s else s ++ '+' :: m
    | none => s
  if withPfx && !v.pfx.isEmpty then v.pfx ++ s else s

/-- Embedding of SemanticVersion.numeric_version. -/
def numeric_version (v : SemanticVersion) : List Char := to_string v false

/-- Embedding of SemanticVersion.is_prerelease (a None test, not
truthiness). -/
def is_prerelease (v : SemanticVersion) : Bool := v.prerelease.isSome

/-- Embedding of SemanticVersion.get_prerelease_identifiers (uses Python
truthiness of the field). -/
def get_prerelease_identifiers (v : SemanticVersion) : List (List Char) :=
  match v.prerelease with
  | some p => if p.isEmpty then [] else splitDot p
  | none => []

/-- Embedding of SemanticVersion.find_numeric_prerelease_components:
index, original identifier and numeric value of every identifier that is
purely numeric or carries a trailing numeral. -/
def find_numeric_prerelease_components (v : SemanticVersion) :
    List (Nat × List Char × Nat) :=
  (get_prerelease_identifiers v).enum.filterMap fun p =>
    if isdigitL p.2 then some (p.1, p.2, toNatDigits p.2)
    else
      let t := trailingDigits p.2
      if t.isEmpty then none else some (p.1, p.2, toNatDigits t)

/-! ### Precedence comparison (compare_precedence) -/

/-- Comparison of a single pair of pre-release identifiers, following the
loop body of _compare_prerelease_identifiers: numeric identifiers compare
by integer value and sort below alphanumeric ones, alphanumeric
identifiers compare lexically. -/
def cmpIds (id1 id2 : List Char) : Int :=
  if isdigitL id1 then
    if isdigitL id2 then
      let r : Int := (toNatDigits id1 : Int) - (toNatDigits id2 : Int)
      if r < 0 then -1 else if 0 < r then 1 else 0
    else -1
  else if isdigitL id2 then 1
  else if pyStrLt id1 id2 then -1
  else if pyStrLt id2 id1 then 1
  else 0

/-- Positional comparison of two identifier chains; a missing identifier
sorts below a present one, and the first non-equal position decides. -/
def cmpIdLists : List (List Char) → List (List Char) → Int
  | [], [] => 0
  | [], _ :: _ => -1
  | _ :: _, [] => 1
  | a :: as', b :: bs' =>
    let c := cmpIds a b
    if c = 0 then cmpIdLists as' bs' else c

/-- Embedding of _compare_prerelease_identifiers including its None
handling. -/
def compare_prerelease_identifiers : Option (List Char) → Option (List Char) → Int
  | none, none => 0
  | none, some _ => -1
  | some _, none => 1
  | some p1, some p2 => cmpIdLists (splitDot p1) (splitDot p2)

/-- Lexicographic strict order on the core (major, minor, patch) triple,
the Python tuple comparison in compare_precedence. -/
def coreLtB (a b : SemanticVersion) : Bool :=
  if a.major < b.major then true
  else if b.major < a.major then false
  else if a.minor < b.minor then true
  else if b.minor < a.minor then false
  else a.patch < b.patch

/-- Embedding of SemanticVersion.compare_precedence. -/
def compare_precedence (a b : SemanticVersion) : Int :=
  if coreLtB a b then -1
  else if coreLtB b a then 1
  else if !is_prerelease a && !is_prerelease b then 0
  else if !is_prerelease a && is_prerelease b then 1
  else if is_prerelease a && !is_prerelease b then -1
  else compare_prerelease_identifiers a.prerelease b.prerelease

/-! ### Incrementer (incrementer.py) -/

/-- Embedding of the IncrementType enumeration.  DEV is a distinct
member in the source, kept distinct here. -/
inductive IncrementType where
  | MAJOR
  | MINOR
  | PATCH
  | PRERELEASE
  | DEV
deriving DecidableEq, Repr

/-- Error kinds for the raising paths of the incrementer (ValueError and
RuntimeError in the source). -/
inductive PyError where
  | valueError
  | runtimeError
deriving DecidableEq, Repr

/-- Decidable equality for Except results, used to evaluate concrete
runs of the incrementer. -/
instance instDecEqExcept {E A : Type} [DecidableEq E] [DecidableEq A] :
    DecidableEq (Except E A)
  | .ok x, .ok y =>
    if h : x = y then .isTrue (by rw [h]) else .isFalse (fun he => h (Except.ok.inj he))
  | .error x, .error y =>
    if h : x = y then .isTrue (by rw [h]) else .isFalse (fun he => h (Except.error.inj he))
  | .ok _, .error _ => .isFalse (fun he => Except.noConfusion he)
  | .error _, .ok _ => .isFalse (fun he => Except.noConfusion he)

/-- Engine state: the caller-supplied tag collection (a Python set,
modelled as a list whose order and duplicates are irrelevant to the
membership tests performed on it) and the metadata-preservation flag.
The lazily built normalized cache of the source is semantically the
image of the tag collection under normalization and is modelled by
recomputing that image at each membership test. -/
structure VersionIncrementer where
  existing_tags : List (List Char)
  preserve_metadata : Bool
deriving Repr

/-- Embedding of _normalize_version_string: strip one leading v/V, cut
at the first plus sign, lower-case. -/
def normalize_version_string (s : List Char) : List Char :=
  match s with
  | [] => []
  | c :: rest =>
    let body := if c = 'v' ∨ c = 'V' then rest else s
    lowerStr (body.takeWhile (· ≠ '+'))

/-- Embedding of _version_exists: membership of the normalized candidate
in the normalized tag set. -/
def version_exists (inc : VersionIncrementer) (v : SemanticVersion) : Bool :=
  if inc.existing_tags.isEmpty then false
  else
    decide (normalize_version_string (to_string v false) ∈
      inc.existing_tags.map normalize_version_string)

/-- Embedding of determine_increment_type: lower-case and trim, then the
enum-value scan (major, minor, patch, prerelease, dev) followed by the
alias table (pre, prerel); anything else raises ValueError.  The dev
entry of the alias table is dead code because the enum scan already
matched it. -/
def determine_increment_type (s : List Char) : Except PyError IncrementType :=
  let t := pyStrip (lowerStr s)
  if t = "major".data then .ok .MAJOR
  else if t = "minor".data then .ok .MINOR
  else if t = "patch".data then .ok .PATCH
  else if t = "prerelease".data then .ok .PRERELEASE
  else if t = "dev".data then .ok .DEV
  else if t = "pre".data then .ok .PRERELEASE
  else if t = "prerel".data then .ok .PRERELEASE
  else .error .valueError

/-- Counter loop of _find_available_prerelease_version: try successive
label.counter candidates, returning the first unused one; the fuel is
the remaining number of attempts of the Python range. -/
def find_avail_aux (inc : VersionIncrementer) (maj mnr pat : Nat) (ptype : List Char)
    (meta : Option (List Char)) (pfx : List Char) : Nat → Nat → Option SemanticVersion
  | _, 0 => none
  | cnt, n + 1 =>
    if version_exists inc ⟨maj, mnr, pat, some (ptype ++ '.' :: natStr cnt), meta, pfx⟩ then
      find_avail_aux inc maj mnr pat ptype meta pfx (cnt + 1) n
    else some ⟨maj, mnr, pat, some (ptype ++ '.' :: natStr cnt), meta, pfx⟩

/-- Embedding of _find_available_prerelease_version.  A missing or zero
max_attempts argument falls back to MAX_PRERELEASE_ATTEMPTS = 1000 via
the Python or-expression. -/
def find_available_prerelease_version (inc : VersionIncrementer) (maj mnr pat : Nat)
    (ptype : List Char) (start : Nat) (maxAtt : Option Nat)
    (meta : Option (List Char)) (pfx : List Char) : Option SemanticVersion :=
  let ma := match maxAtt with
    | none => 1000
    | some m => if m = 0 then 1000 else m
  find_avail_aux inc maj mnr pat ptype meta pfx start ma

/-- Counter loop of _find_next_available_version: rebuild the identifier
chain with the rightmost numeral replaced by the running counter; stop
with RuntimeError once the counter passes MAX_PRERELEASE_ATTEMPTS.  The
fuel equals 1000 minus the starting counter (saturating), which renders
exactly the post-increment bound check of the Python loop. -/
def fnav_loop (inc : VersionIncrementer) (maj mnr pat : Nat) (ids : List (List Char))
    (idx : Nat) (origId : List Char) (meta : Option (List Char)) (pfx : List Char) :
    Nat → Nat → Except PyError SemanticVersion
  | cnt, fuel =>
    if version_exists inc ⟨maj, mnr, pat, some (joinDot (ids.set idx
        (if isdigitL origId then natStr cnt else dropTrailingDigits origId ++ natStr cnt))),
        meta, pfx⟩ then
      match fuel with
      | 0 => .error .runtimeError
      | f + 1 => fnav_loop inc maj mnr pat ids idx origId meta pfx (cnt + 1) f
    else .ok ⟨maj, mnr, pat, some (joinDot (ids.set idx
        (if isdigitL origId then natStr cnt else dropTrailingDigits origId ++ natStr cnt))),
        meta, pfx⟩

/-- Embedding of _find_next_available_version. -/
def find_next_available_version (inc : VersionIncrementer) (base : SemanticVersion) :
    Except PyError SemanticVersion :=
  if !is_prerelease base then .error .valueError
  else
    match (find_numeric_prerelease_components base).getLast? with
    | none =>
      .ok ⟨base.major, base.minor, base.patch,
        some ((base.prerelease.getD []) ++ ".1".data),
        (if inc.preserve_metadata then base.metadata else none), base.pfx⟩
    | some (idx, origId, nval) =>
      fnav_loop inc base.major base.minor base.patch
        (get_prerelease_identifiers base) idx origId base.metadata base.pfx
        (nval + 1) (1000 - (nval + 1))

/-- Embedding of _find_next_available_prerelease_for_conflict: the shared
counter search, then an unchecked-second patch fallback that is itself
checked, then the last-resort numeral search. -/
def find_next_available_prerelease_for_conflict (inc : VersionIncrementer)
    (base : SemanticVersion) (ptype : List Char) : Except PyError SemanticVersion :=
  match find_available_prerelease_version inc base.major base.minor base.patch ptype 1 none
      base.metadata base.pfx with
  | some av => .ok av
  | none =>
    let fb : SemanticVersion := ⟨base.major, base.minor, base.patch + 1,
      some (ptype ++ ".1".data), base.metadata, base.pfx⟩
    if version_exists inc fb then find_next_available_version inc fb
    else .ok fb

/-- Patch scan of _increment_major and _increment_minor: probe successive
patch numbers for an unused plain triple; the Python range covers
1 through 99. -/
def scan_patch_range (inc : VersionIncrementer) (maj mnr : Nat)
    (meta : Option (List Char)) (pfx : List Char) : Nat → Nat → Option SemanticVersion
  | _, 0 => none
  | p, n + 1 =>
    if version_exists inc ⟨maj, mnr, p, none, meta, pfx⟩ then
      scan_patch_range inc maj mnr meta pfx (p + 1) n
    else some ⟨maj, mnr, p, none, meta, pfx⟩

/-- Embedding of _increment_major. -/
def increment_major (inc : VersionIncrementer) (v : SemanticVersion) :
    Except PyError SemanticVersion :=
  let meta := if inc.preserve_metadata then v.metadata else none
  let candidate : SemanticVersion := ⟨v.major + 1, 0, 0, none, meta, v.pfx⟩
  if version_exists inc candidate then
    match scan_patch_range inc candidate.major candidate.minor meta v.pfx 1 99 with
    | some nc => .ok nc
    | none => find_next_available_prerelease_for_conflict inc candidate "dev".data
  else .ok candidate

/-- Embedding of _increment_minor. -/
def increment_minor (inc : VersionIncrementer) (v : SemanticVersion) :
    Except PyError SemanticVersion :=
  let meta := if inc.preserve_metadata then v.metadata else none
  let candidate : SemanticVersion := ⟨v.major, v.minor + 1, 0, none, meta, v.pfx⟩
  if version_exists inc candidate then
    match scan_patch_range inc candidate.major candidate.minor meta v.pfx 1 99 with
    | some nc => .ok nc
    | none => find_next_available_prerelease_for_conflict inc candidate "dev".data
  else .ok candidate

/-- Embedding of _get_existing_patches: patch numbers of all normalized
tags at the given major.minor, read from the text before any hyphen or
plus sign. -/
def get_existing_patches (inc : VersionIncrementer) (maj mnr : Nat) : List Nat :=
  inc.existing_tags.filterMap fun tag =>
    let normalized := normalize_version_string tag
    let pat := natStr maj ++ '.' :: natStr mnr ++ ['.']
    if pat.isPrefixOf normalized then
      let remainder := normalized.drop pat.length
      let patchStr := (remainder.takeWhile (· ≠ '-')).takeWhile (· ≠ '+')
      if isdigitL patchStr then some (toNatDigits patchStr) else none
    else none

/-- Scan loop of _find_next_available_patch: skip patch numbers recorded
as taken, and re-check surviving candidates against the full normalized
membership test. -/
def find_patch_aux (inc : VersionIncrementer) (v : SemanticVersion)
    (existing : List Nat) : Nat → Nat → Option SemanticVersion
  | _, 0 => none
  | p, n + 1 =>
    if p ∈ existing then find_patch_aux inc v existing (p + 1) n
    else
      if version_exists inc ⟨v.major, v.minor, p, none,
          (if inc.preserve_metadata then v.metadata else none), v.pfx⟩ then
        find_patch_aux inc v existing (p + 1) n
      else some ⟨v.major, v.minor, p, none,
        (if inc.preserve_metadata then v.metadata else none), v.pfx⟩

/-- Embedding of _find_next_available_patch: the while loop runs from
patch+1 up to patch+MAX_PATCH_ATTEMPTS inclusive, 100 iterations. -/
def find_next_available_patch (inc : VersionIncrementer) (v : SemanticVersion) :
    Option SemanticVersion :=
  find_patch_aux inc v (get_existing_patches inc v.major v.minor) (v.patch + 1) 100

/-- Embedding of _create_patch_candidate. -/
def create_patch_candidate (inc : VersionIncrementer) (v : SemanticVersion) : SemanticVersion :=
  ⟨v.major, v.minor, v.patch + 1, none,
    (if inc.preserve_metadata then v.metadata else none), v.pfx⟩

/-- Embedding of _create_conflict_prerelease. -/
def create_conflict_prerelease (inc : VersionIncrementer) (v : SemanticVersion)
    (ptype : List Char) : Except PyError SemanticVersion :=
  let base : SemanticVersion := ⟨v.major, v.minor, v.patch + 1, none,
    (if inc.preserve_metadata then v.metadata else none), v.pfx⟩
  let cand : SemanticVersion := ⟨base.major, base.minor, base.patch,
    some (ptype ++ ".1".data),
    (if inc.preserve_metadata then base.metadata else none), base.pfx⟩
  if version_exists inc cand then find_next_available_prerelease_for_conflict inc base ptype
  else .ok cand

/-- Embedding of _resolve_patch_conflict. -/
def resolve_patch_conflict (inc : VersionIncrementer) (v : SemanticVersion)
    (ptype : List Char) : Except PyError SemanticVersion :=
  match find_next_available_patch inc v with
  | some np => .ok np
  | none => create_conflict_prerelease inc v ptype

/-- Embedding of _increment_patch. -/
def increment_patch (inc : VersionIncrementer) (v : SemanticVersion)
    (ptype : List Char) : Except PyError SemanticVersion :=
  let candidate := create_patch_candidate inc v
  if version_exists inc candidate then resolve_patch_conflict inc v ptype
  else .ok candidate

/-- Patch loop of _create_first_prerelease: five successive patch values,
each probed through the shared counter search with the tighter bound
min(MAX_PRERELEASE_ATTEMPTS, MAX_PATCH_ATTEMPTS). -/
def first_search_aux (inc : VersionIncrementer) (v : SemanticVersion)
    (pid : List Char) : Nat → Nat → Option SemanticVersion
  | _, 0 => none
  | p, n + 1 =>
    match find_available_prerelease_version inc v.major v.minor p pid 1
        (some (Nat.min 1000 100)) v.metadata v.pfx with
    | some av => some av
    | none => first_search_aux inc v pid (p + 1) n

/-- The bounded window search of _create_first_prerelease, starting at
patch+1 and covering five patch values. -/
def first_prerelease_search (inc : VersionIncrementer) (v : SemanticVersion)
    (pid : List Char) : Option SemanticVersion :=
  first_search_aux inc v pid (v.patch + 1) 5

/-- Model of the Python or-default for the pre-release label: None and
the empty string both give dev. -/
def pyOrDev : Option (List Char) → List Char
  | some l => if l.isEmpty then "dev".data else l
  | none => "dev".data

/-- Model of the Python f-string rendering of the raw optional label:
str(None) is the four-character text None. -/
def pyShowOptStr : Option (List Char) → List Char
  | some l => l
  | none => "None".data

/-- Embedding of _create_first_prerelease.  The fallback literally
interpolates the raw label argument (which renders as the text None when
absent) and keeps the original patch number, unchecked. -/
def create_first_prerelease (inc : VersionIncrementer) (v : SemanticVersion)
    (lbl : Option (List Char)) : SemanticVersion :=
  let pid := pyOrDev lbl
  match first_prerelease_search inc v pid with
  | some av => av
  | none =>
    ⟨v.major, v.minor, v.patch, some (pyShowOptStr lbl ++ ".1".data),
      (if inc.preserve_metadata then v.metadata else none), v.pfx⟩

/-- The rewritten pre-release chain computed by
_increment_existing_prerelease: the rightmost numeric component is
incremented, or the numeral one is appended when there is none. -/
def new_prerelease_string (v : SemanticVersion) : List Char :=
  match (find_numeric_prerelease_components v).getLast? with
  | none => (v.prerelease.getD []) ++ ".1".data
  | some (idx, origId, nval) =>
    joinDot ((get_prerelease_identifiers v).set idx
      (if isdigitL origId then natStr (nval + 1)
        else dropTrailingDigits origId ++ natStr (nval + 1)))

/-- Embedding of _increment_existing_prerelease. -/
def increment_existing_prerelease (inc : VersionIncrementer) (v : SemanticVersion) :
    Except PyError SemanticVersion :=
  if version_exists inc ⟨v.major, v.minor, v.patch, some (new_prerelease_string v),
      (if inc.preserve_metadata then v.metadata else none), v.pfx⟩ then
    match find_available_prerelease_version inc v.major v.minor (v.patch + 1)
        ((splitDot (new_prerelease_string v)).headD []) 1 none v.metadata v.pfx with
    | some av => .ok av
    | none => .error .runtimeError
  else .ok ⟨v.major, v.minor, v.patch, some (new_prerelease_string v),
    (if inc.preserve_metadata then v.metadata else none), v.pfx⟩

/-- The label-switch test of _increment_prerelease: a truthy current
leading identifier differing case-insensitively from the supplied label. -/
def switch_condition (v : SemanticVersion) (lbl : List Char) : Bool :=
  let ids := get_prerelease_identifiers v
  let cur := lowerStr (ids.headD [])
  !cur.isEmpty && cur ≠ lowerStr lbl

/-- Embedding of _increment_prerelease. -/
def increment_prerelease (inc : VersionIncrementer) (v : SemanticVersion)
    (lbl : Option (List Char)) : Except PyError SemanticVersion :=
  if !is_prerelease v then .ok (create_first_prerelease inc v lbl)
  else
    match lbl with
    | some l =>
      if !l.isEmpty && switch_condition v l then
        .ok ⟨v.major, v.minor, v.patch, some (l ++ ".1".data),
          (if inc.preserve_metadata then v.metadata else none), v.pfx⟩
      else increment_existing_prerelease inc v
    | none => increment_existing_prerelease inc v

/-- Embedding of VersionIncrementer.increment, the advancement entry
point.  The PATCH branch applies the or-default dev to the label. -/
def increment (inc : VersionIncrementer) (v : SemanticVersion)
    (ity : IncrementType) (lbl : Option (List Char)) : Except PyError SemanticVersion :=
  match ity with
  | .MAJOR => increment_major inc v
  | .MINOR => increment_minor inc v
  | .PATCH => increment_patch inc v (pyOrDev lbl)
  | .PRERELEASE => increment_prerelease inc v lbl
  | .DEV => increment_prerelease inc v lbl

/-! ### Character bridges -/

theorem char_le_iff {a b : Char} : a ≤ b ↔ a.toNat ≤ b.toNat := Iff.rfl

theorem char_lt_iff {a b : Char} : a < b ↔ a.toNat < b.toNat := Iff.rfl

theorem char_toNat_inj {a b : Char} (h : a.toNat = b.toNat) : a = b :=
  Char.eq_of_val_eq (UInt32.toNat.inj h)

theorem isDigit_toNat {c : Char} (h : c.isDigit = true) :
    48 ≤ c.toNat ∧ c.toNat ≤ 57 := by
  simp only [Char.isDigit, Bool.and_eq_true, decide_eq_true_eq] at h
  obtain ⟨h1, h2⟩ := h
  exact ⟨char_le_iff.mp (show ('0' : Char) ≤ c from h1),
    char_le_iff.mp (show c ≤ ('9' : Char) from h2)⟩

/-! ### Arithmetic facts about decimal strings -/

theorem digitVal_lt_ten {c : Char} (h : c.isDigit = true) : digitVal c < 10 := by
  have := isDigit_toNat h
  simp only [digitVal]
  omega

theorem digitVal_ge_one {c : Char} (h : c.isDigit = true) (h0 : c ≠ '0') :
    1 ≤ digitVal c := by
  have hb := isDigit_toNat h
  have : c.toNat ≠ 48 := fun he => h0 (char_toNat_inj (by rw [he]; rfl))
  simp only [digitVal]
  omega

theorem digitChar_isDigit {n : Nat} (h : n < 10) : (digitChar n).isDigit = true := by
  interval_cases n <;> decide

theorem digitChar_ne_zero {n : Nat} (h1 : 1 ≤ n) (h : n < 10) : digitChar n ≠ '0' := by
  interval_cases n <;> decide

theorem digitVal_digitChar {n : Nat} (h : n < 10) : digitVal (digitChar n) = n := by
  interval_cases n <;> decide

theorem digitChar_digitVal {c : Char} (h : c.isDigit = true) : digitChar (digitVal c) = c := by
  have hb := isDigit_toNat h
  have he : 48 + digitVal c = c.toNat := by simp only [digitVal]; omega
  calc digitChar (digitVal c) = Char.ofNat c.toNat := by rw [digitChar, he]
    _ = c := Char.ofNat_toNat c

theorem toNatDigits_from (acc : Nat) (l : List Char) :
    l.foldl (fun a c => a * 10 + digitVal c) acc =
      acc * 10 ^ l.length + toNatDigits l := by
  induction l generalizing acc with
  | nil => simp [toNatDigits]
  | cons c t ih =>
    simp only [List.foldl_cons, List.length_cons, toNatDigits]
    rw [ih (acc * 10 + digitVal c), ih (0 * 10 + digitVal c)]
    ring

theorem toNatDigits_cons (c : Char) (t : List Char) :
    toNatDigits (c :: t) = digitVal c * 10 ^ t.length + toNatDigits t := by
  simp only [toNatDigits, List.foldl_cons]
  rw [toNatDigits_from]
  simp [toNatDigits]

theorem toNatDigits_singleton (c : Char) : toNatDigits [c] = digitVal c := by
  rw [show ([c] : List Char) = c :: [] from rfl, toNatDigits_cons]
  simp [toNatDigits]

theorem toNatDigits_append (a b : List Char) :
    toNatDigits (a ++ b) = toNatDigits a * 10 ^ b.length + toNatDigits b := by
  simp only [toNatDigits, List.foldl_append]
  rw [toNatDigits_from]
  rfl

theorem toNatDigits_lt (l : List Char) (h : ∀ c ∈ l, c.isDigit = true) :
    toNatDigits l < 10 ^ l.length := by
  induction l with
  | nil => simp [toNatDigits]
  | cons c t ih =>
    rw [toNatDigits_cons]
    have hc := digitVal_lt_ten (h c (List.mem_cons_self _ _))
    have ht := ih fun x hx => h x (List.mem_cons_of_mem _ hx)
    have hp : (10 : Nat) ^ (t.length + 1) = 10 ^ t.length * 10 := pow_succ 10 t.length
    simp only [List.length_cons]
    nlinarith

theorem toNatDigits_ge (c : Char) (t : List Char) (hc : c.isDigit = true) (h0 : c ≠ '0') :
    10 ^ t.length ≤ toNatDigits (c :: t) := by
  rw [toNatDigits_cons]
  have h1 := digitVal_ge_one hc h0
  have hm : 1 * 10 ^ t.length ≤ digitVal c * 10 ^ t.length :=
    mul_le_mul_right' h1 _
  omega

theorem natStrAux_irrel : ∀ f g n, n < f → n < g → natStrAux f n = natStrAux g n := by
  intro f
  induction f with
  | zero => intro g n h; omega
  | succ f ih =>
    intro g n hf hg
    match g, hg with
    | g + 1, hg =>
      simp only [natStrAux]
      by_cases h10 : n < 10
      · simp [h10]
      · simp only [h10, if_false]
        have hdiv : n / 10 < n := Nat.div_lt_self (by omega) (by omega)
        rw [ih g (n / 10) (by omega) (by omega)]

theorem natStr_eq (n : Nat) :
    natStr n = if n < 10 then [digitChar n]
      else natStr (n / 10) ++ [digitChar (n % 10)] := by
  have h1 : natStr n = if n < 10 then [digitChar n]
      else natStrAux n (n / 10) ++ [digitChar (n % 10)] := rfl
  rw [h1]
  by_cases h10 : n < 10
  · simp [h10]
  · simp only [h10, if_false]
    have hdiv : n / 10 < n := Nat.div_lt_self (by omega) (by omega)
    rw [natStrAux_irrel n (n / 10 + 1) (n / 10) (by omega) (by omega)]
    rfl

theorem natStr_ne_nil (n : Nat) : natStr n ≠ [] := by
  rw [natStr_eq]
  by_cases h10 : n < 10 <;> simp [h10]

theorem natStr_digits (n : Nat) : ∀ c ∈ natStr n, c.isDigit = true := by
  induction n using Nat.strong_induction_on with
  | _ n ih =>
    rw [natStr_eq]
    by_cases h10 : n < 10
    · simp only [h10, if_true, List.mem_singleton]
      rintro c rfl
      exact digitChar_isDigit h10
    · simp only [h10, if_false]
      intro c hc
      rcases List.mem_append.mp hc with h | h
      · exact ih (n / 10) (Nat.div_lt_self (by omega) (by omega)) c h
      · rw [List.mem_singleton.mp h]
        exact digitChar_isDigit (Nat.mod_lt _ (by omega))

theorem natStr_head (n : Nat) (hn : n ≠ 0) :
    ∃ c t, natStr n = c :: t ∧ c.isDigit = true ∧ c ≠ '0' := by
  induction n using Nat.strong_induction_on with
  | _ n ih =>
    rw [natStr_eq]
    by_cases h10 : n < 10
    · exact ⟨digitChar n, [], by simp [h10], digitChar_isDigit h10,
        digitChar_ne_zero (by omega) h10⟩
    · have hdiv : n / 10 < n := Nat.div_lt_self (by omega) (by omega)
      have hne : n / 10 ≠ 0 := by
        have : 0 < n / 10 := Nat.div_pos (by omega) (by omega)
        omega
      obtain ⟨c, t, he, hd, h0⟩ := ih (n / 10) hdiv hne
      exact ⟨c, t ++ [digitChar (n % 10)], by simp [h10, he], hd, h0⟩

theorem toNatDigits_natStr (n : Nat) : toNatDigits (natStr n) = n := by
  induction n using Nat.strong_induction_on with
  | _ n ih =>
    rw [natStr_eq]
    by_cases h10 : n < 10
    · simp only [h10, if_true]
      rw [toNatDigits_singleton, digitVal_digitChar h10]
    · simp only [h10, if_false]
      rw [toNatDigits_append]
      have hdiv : n / 10 < n := Nat.div_lt_self (by omega) (by omega)
      rw [ih (n / 10) hdiv, toNatDigits_singleton,
        digitVal_digitChar (Nat.mod_lt n (by omega) : n % 10 < 10)]
      simp only [List.length_singleton, pow_one]
      omega

theorem length_natStr (n : Nat) : (natStr n).length = Nat.log 10 n + 1 := by
  induction n using Nat.strong_induction_on with
  | _ n ih =>
    rw [natStr_eq]
    by_cases h10 : n < 10
    · have hl : Nat.log 10 n = 0 := Nat.log_eq_zero_iff.mpr (Or.inl h10)
      simp [h10, hl]
    · have hdiv : n / 10 < n := Nat.div_lt_self (by omega) (by omega)
      simp only [h10, if_false, List.length_append, List.length_singleton]
      rw [ih (n / 10) hdiv, Nat.log_div_base]
      have : 1 ≤ Nat.log 10 n := Nat.log_pos (by omega) (by omega)
      omega

theorem natStr_length_mono {m n : Nat} (h : m ≤ n) :
    (natStr m).length ≤ (natStr n).length := by
  rw [length_natStr, length_natStr]
  exact Nat.succ_le_succ (Nat.log_mono_right h)

theorem natStr_canonical (d : List Char) (hne : d ≠ [])
    (hdig : ∀ c ∈ d, c.isDigit = true)
    (hcanon : ∀ t, d = '0' :: t → t = []) :
    natStr (toNatDigits d) = d := by
  induction d using List.reverseRecOn with
  | nil => exact absurd rfl hne
  | append_singleton init c ihi =>
    have hc : c.isDigit = true := hdig c (by simp)
    rcases init with _ | ⟨x, xs⟩
    · simp only [List.nil_append]
      rw [toNatDigits_singleton, natStr_eq]
      simp only [digitVal_lt_ten hc, if_true, digitChar_digitVal hc]
    · have hx : x.isDigit = true := hdig x (by simp)
      have hx0 : x ≠ '0' := by
        rintro rfl
        have := hcanon (xs ++ [c]) (by simp)
        simp at this
      have hdig' : ∀ y ∈ x :: xs, y.isDigit = true := fun y hy =>
        hdig y (by simp only [List.cons_append, List.mem_cons, List.mem_append] at hy ⊢; tauto)
      have hrec := ihi (by simp) hdig' (fun t ht => absurd (List.head_eq_of_cons_eq ht) hx0)
      have hpos : 1 ≤ toNatDigits (x :: xs) :=
        le_trans (Nat.one_le_pow _ _ (by omega)) (toNatDigits_ge x xs hx hx0)
      have hcv := digitVal_lt_ten hc
      rw [show (x :: xs) ++ [c] = (x :: xs) ++ [c] from rfl, toNatDigits_append,
        toNatDigits_singleton]
      simp only [List.length_singleton, pow_one]
      rw [natStr_eq]
      have h10 : ¬ (toNatDigits (x :: xs) * 10 + digitVal c < 10) := by nlinarith
      simp only [h10, if_false]
      have hdivq : (toNatDigits (x :: xs) * 10 + digitVal c) / 10 = toNatDigits (x :: xs) := by
        omega
      have hmodq : (toNatDigits (x :: xs) * 10 + digitVal c) % 10 = digitVal c := by omega
      rw [hdivq, hmodq, hrec, digitChar_digitVal hc]

theorem all_nines_of_toNat (d : List Char) (hdig : ∀ c ∈ d, c.isDigit = true)
    (h : toNatDigits d = 10 ^ d.length - 1) : ∀ c ∈ d, c = '9' := by
  induction d using List.reverseRecOn with
  | nil => simp
  | append_singleton init c ihi =>
    have hc : c.isDigit = true := hdig c (by simp)
    have hdig' : ∀ x ∈ init, x.isDigit = true := fun x hx => hdig x (by simp [hx])
    rw [toNatDigits_append, toNatDigits_singleton] at h
    simp only [List.length_append, List.length_singleton, pow_succ, pow_one,
      pow_zero, one_mul] at h
    have hlt := toNatDigits_lt init hdig'
    have hcv := digitVal_lt_ten hc
    have hpow : 1 ≤ 10 ^ init.length := Nat.one_le_pow _ _ (by omega)
    have hv9 : digitVal c = 9 := by omega
    have hinit : toNatDigits init = 10 ^ init.length - 1 := by omega
    intro x hx
    rcases List.mem_append.mp hx with hx | hx
    · exact ihi hdig' hinit x hx
    · rw [List.mem_singleton.mp hx, ← digitChar_digitVal hc, hv9]
      decide

/-! ### Order facts about the lexicographic comparison -/

theorem pyStrLt_irrefl (s : List Char) : pyStrLt s s = false := by
  induction s with
  | nil => rfl
  | cons c t ih => simp [pyStrLt, ih]

theorem pyStrLt_asymm : ∀ a b, pyStrLt a b = true → pyStrLt b a = false := by
  intro a
  induction a with
  | nil =>
    intro b _
    cases b <;> rfl
  | cons x xs ih =>
    intro b h
    cases b with
    | nil => simp [pyStrLt] at h
    | cons y ys =>
      simp only [pyStrLt] at h ⊢
      rcases lt_trichotomy x y with hxy | hxy | hxy
      · simp [hxy, not_lt_of_lt hxy]
      · subst hxy
        simp only [lt_irrefl, if_false] at h ⊢
        exact ih ys h
      · simp [hxy, not_lt_of_lt hxy] at h

theorem pyStrLt_total_eq : ∀ a b, pyStrLt a b = false → pyStrLt b a = false → a = b := by
  intro a
  induction a with
  | nil =>
    intro b h _
    cases b with
    | nil => rfl
    | cons y ys => simp [pyStrLt] at h
  | cons x xs ih =>
    intro b h h'
    cases b with
    | nil => simp [pyStrLt] at h'
    | cons y ys =>
      simp only [pyStrLt] at h h'
      rcases lt_trichotomy x y with hxy | hxy | hxy
      · simp [hxy] at h
      · subst hxy
        simp only [lt_irrefl, if_false] at h h'
        rw [ih ys h h']
      · simp [hxy] at h'

theorem pyStrLt_trans : ∀ a b c, pyStrLt a b = true → pyStrLt b c = true →
    pyStrLt a c = true := by
  intro a
  induction a with
  | nil =>
    intro b c hab hbc
    cases c with
    | nil =>
      cases b with
      | nil => exact hab
      | cons y ys => simp [pyStrLt] at hbc
    | cons z zs => rfl
  | cons x xs ih =>
    intro b c hab hbc
    cases b with
    | nil => simp [pyStrLt] at hab
    | cons y ys =>
      cases c with
      | nil => simp [pyStrLt] at hbc
      | cons z zs =>
        simp only [pyStrLt] at hab hbc ⊢
        rcases lt_trichotomy x y with hxy | hxy | hxy
        · rcases lt_trichotomy y z with hyz | hyz | hyz
          · have : x < z := lt_trans hxy hyz
            simp [this]
          · subst hyz; simp [hxy]
          · simp [hyz, not_lt_of_lt hyz] at hbc
        · subst hxy
          rcases lt_trichotomy x z with hyz | hyz | hyz
          · simp [hyz]
          · subst hyz
            simp only [lt_irrefl, if_false] at hab hbc ⊢
            exact ih ys zs hab hbc
          · simp [hyz, not_lt_of_lt hyz] at hbc
        · simp [hxy, not_lt_of_lt hxy] at hab

theorem pyStrLt_append_left : ∀ (x a b : List Char),
    pyStrLt (x ++ a) (x ++ b) = pyStrLt a b := by
  intro x
  induction x with
  | nil => intro a b; rfl
  | cons c t ih =>
    intro a b
    show pyStrLt (c :: (t ++ a)) (c :: (t ++ b)) = pyStrLt a b
    cases hb : t ++ b with
    | nil =>
      have hb' : b = [] := by cases b <;> simp_all
      have ht : t = [] := by cases t <;> simp_all
      subst hb'; subst ht
      simp only [List.nil_append]
      cases a <;> simp [pyStrLt]
    | cons z zs =>
      simp only [pyStrLt, hb]
      rw [if_neg (lt_irrefl c), if_neg (lt_irrefl c), ← hb, ih]

/-- On equal-length digit strings the lexicographic order agrees with the
numeric order. -/
theorem pyStrLt_of_toNat_lt : ∀ (d1 d2 : List Char), d1.length = d2.length →
    (∀ c ∈ d1, c.isDigit = true) → (∀ c ∈ d2, c.isDigit = true) →
    toNatDigits d1 < toNatDigits d2 → pyStrLt d1 d2 = true := by
  intro d1
  induction d1 with
  | nil =>
    intro d2 hlen _ _ hv
    cases d2 with
    | nil => simp [toNatDigits] at hv
    | cons y ys => simp at hlen
  | cons x xs ih =>
    intro d2 hlen hd1 hd2 hv
    cases d2 with
    | nil => simp at hlen
    | cons y ys =>
      have hlen' : xs.length = ys.length := by simpa using hlen
      have hx := hd1 x (List.mem_cons_self _ _)
      have hy := hd2 y (List.mem_cons_self _ _)
      rw [toNatDigits_cons, toNatDigits_cons, hlen'] at hv
      simp only [pyStrLt]
      rcases lt_trichotomy x y with hxy | hxy | hxy
      · simp [hxy]
      · subst hxy
        simp only [lt_irrefl, if_false]
        exact ih ys hlen' (fun c hc => hd1 c (List.mem_cons_of_mem _ hc))
          (fun c hc => hd2 c (List.mem_cons_of_mem _ hc)) (by omega)
      · exfalso
        have hvy : digitVal y < digitVal x := by
          have h1 := isDigit_toNat hx
          have h2 := isDigit_toNat hy
          have := char_lt_iff.mp hxy
          simp only [digitVal]
          omega
        have hxb := toNatDigits_lt xs fun c hc => hd1 c (List.mem_cons_of_mem _ hc)
        have hyb := toNatDigits_lt ys fun c hc => hd2 c (List.mem_cons_of_mem _ hc)
        have : (digitVal y + 1) * 10 ^ ys.length ≤ digitVal x * 10 ^ ys.length :=
          mul_le_mul_right' (by omega) _
        nlinarith

/-- Stepping a digit string to the rendering of its successor moves it up
in lexicographic order, except on an all-nines string. -/
theorem digits_lt_succ (d : List Char) (hne : d ≠ [])
    (hdig : ∀ c ∈ d, c.isDigit = true)
    (h9 : ¬ ∀ c ∈ d, c = '9') :
    pyStrLt d (natStr (toNatDigits d + 1)) = true := by
  rcases d with _ | ⟨x, xs⟩
  · exact absurd rfl hne
  by_cases hx0 : x = '0'
  · -- leading zero: decided on the first character
    subst hx0
    obtain ⟨c, t, he, hcd, hc0⟩ := natStr_head (toNatDigits ('0' :: xs) + 1) (by omega)
    rw [he]
    have : ('0' : Char) < c := by
      rw [char_lt_iff]
      have h1 := isDigit_toNat hcd
      have : c.toNat ≠ 48 := fun hh => hc0 (char_toNat_inj (by rw [hh]; rfl))
      simp only [show ('0' : Char).toNat = 48 from rfl]
      omega
    simp [pyStrLt, this]
  · -- canonical digit string: it renders its own value
    have hcanon : natStr (toNatDigits (x :: xs)) = x :: xs :=
      natStr_canonical _ hne hdig fun t ht => absurd (List.head_eq_of_cons_eq ht) hx0
    set n := toNatDigits (x :: xs) with hn
    have hdig' : ∀ c ∈ natStr (n + 1), c.isDigit = true := natStr_digits _
    rcases Nat.lt_or_ge ((natStr n).length) ((natStr (n + 1)).length) with hval | hval
    · -- the length grew: the old string must be all nines
      exfalso
      apply h9
      have hlow : 10 ^ (natStr n).length ≤ n + 1 := by
        obtain ⟨c, t, he, hcd, hc0⟩ := natStr_head (n + 1) (by omega)
        calc 10 ^ (natStr n).length ≤ 10 ^ t.length := by
              apply Nat.pow_le_pow_right (by omega)
              have := congrArg List.length he
              simp at this
              omega
          _ ≤ toNatDigits (c :: t) := toNatDigits_ge c t hcd hc0
          _ = toNatDigits (natStr (n + 1)) := by rw [he]
          _ = n + 1 := toNatDigits_natStr _
      have hup : n < 10 ^ (natStr n).length := by
        have := toNatDigits_lt (natStr n) (natStr_digits n)
        rwa [toNatDigits_natStr] at this
      have hexact : n = 10 ^ (natStr n).length - 1 := by omega
      have hexact2 : toNatDigits (x :: xs) = 10 ^ (x :: xs).length - 1 := by
        rw [← hcanon, toNatDigits_natStr]
        exact hexact
      exact all_nines_of_toNat (x :: xs) hdig hexact2
    · -- lengths agree: numeric order transfers to lexicographic order
      have hlen : (x :: xs).length = (natStr (n + 1)).length := by
        have hmono := natStr_length_mono (show n ≤ n + 1 by omega)
        have : (natStr n).length = (x :: xs).length := by rw [hcanon]
        omega
      have := pyStrLt_of_toNat_lt (x :: xs) (natStr (n + 1)) hlen hdig hdig'
        (by rw [toNatDigits_natStr, ← hn]; omega)
      exact this

/-! ### Facts about splitting and joining identifier chains -/

theorem splitDot_ne_nil (s : List Char) : splitDot s ≠ [] := by
  cases s with
  | nil => simp [splitDot]
  | cons c r =>
    simp only [splitDot]
    by_cases h : c = '.'
    · simp [h]
    · simp only [h, if_false]
      cases splitDot r <;> simp

theorem joinDot_splitDot (s : List Char) : joinDot (splitDot s) = s := by
  induction s with
  | nil => rfl
  | cons c r ih =>
    simp only [splitDot]
    by_cases h : c = '.'
    · subst h
      rcases hs : splitDot r with _ | ⟨h1, t1⟩
      · exact absurd hs (splitDot_ne_nil r)
      · simp only [if_true, joinDot]
        rw [← hs, ih]
        rfl
    · simp only [h, if_false]
      rcases hs : splitDot r with _ | ⟨h1, t1⟩
      · exact absurd hs (splitDot_ne_nil r)
      · rw [hs] at ih
        cases t1 with
        | nil => simp only [joinDot] at ih ⊢; rw [ih]
        | cons h2 t2 => simp only [joinDot] at ih ⊢; rw [List.cons_append, ih]

theorem splitDot_no_dot : ∀ s, ∀ part ∈ splitDot s, '.' ∉ part := by
  intro s
  induction s with
  | nil => simp [splitDot]
  | cons c r ih =>
    intro part hp
    simp only [splitDot] at hp
    by_cases h : c = '.'
    · simp only [h, if_true, List.mem_cons] at hp
      rcases hp with rfl | hp
      · simp
      · exact ih part hp
    · simp only [h, if_false] at hp
      rcases hs : splitDot r with _ | ⟨h1, t1⟩
      · exact absurd hs (splitDot_ne_nil r)
      · rw [hs] at hp
        simp only [List.mem_cons] at hp
        rcases hp with rfl | hp
        · intro hmem
          rcases List.mem_cons.mp hmem with he | hmem'
          · exact h he.symm
          · exact ih h1 (by rw [hs]; exact List.mem_cons_self _ _) hmem'
        · exact ih part (by rw [hs]; exact List.mem_cons_of_mem _ hp)

theorem splitDot_of_no_dot (x : List Char) (hx : '.' ∉ x) : splitDot x = [x] := by
  induction x with
  | nil => rfl
  | cons c r ih =>
    have hc : ¬ c = '.' := fun h => hx (by rw [h]; exact List.mem_cons_self _ _)
    simp only [splitDot, hc, if_false]
    rw [ih (fun h => hx (List.mem_cons_of_mem _ h))]

theorem splitDot_append_dot (x y : List Char) (hx : '.' ∉ x) :
    splitDot (x ++ '.' :: y) = x :: splitDot y := by
  induction x with
  | nil => simp [splitDot]
  | cons c r ih =>
    have hc : ¬ c = '.' := fun h => hx (by rw [h]; exact List.mem_cons_self _ _)
    simp only [List.cons_append, splitDot, hc, if_false, List.append_eq]
    rw [ih (fun h => hx (List.mem_cons_of_mem _ h))]

theorem splitDot_joinDot : ∀ (l : List (List Char)), l ≠ [] →
    (∀ part ∈ l, '.' ∉ part) → splitDot (joinDot l) = l := by
  intro l
  induction l with
  | nil => intro h; exact absurd rfl h
  | cons x t ih =>
    intro _ hnd
    cases t with
    | nil =>
      simp only [joinDot]
      exact splitDot_of_no_dot x (hnd x (List.mem_cons_self _ _))
    | cons y t2 =>
      simp only [joinDot]
      rw [splitDot_append_dot x _ (hnd x (List.mem_cons_self _ _))]
      rw [show joinDot (y :: t2) = joinDot (y :: t2) from rfl] at *
      have := ih (by simp) (fun p hp => hnd p (List.mem_cons_of_mem _ hp))
      simp only [joinDot] at this
      rw [this]

/-! ### Order facts about the identifier comparator -/

theorem cmpIds_num {a b : List Char} (ha : isdigitL a = true) (hb : isdigitL b = true) :
    cmpIds a b = if toNatDigits a < toNatDigits b then -1
      else if toNatDigits b < toNatDigits a then 1 else 0 := by
  simp only [cmpIds, ha, hb, if_true]
  by_cases h1 : toNatDigits a < toNatDigits b
  · rw [if_pos (show ((toNatDigits a : Int) - (toNatDigits b : Int)) < 0 by omega), if_pos h1]
  · by_cases h2 : toNatDigits b < toNatDigits a
    · rw [if_neg (show ¬ ((toNatDigits a : Int) - (toNatDigits b : Int)) < 0 by omega),
        if_pos (show (0 : Int) < (toNatDigits a : Int) - (toNatDigits b : Int) by omega),
        if_neg h1, if_pos h2]
    · rw [if_neg (show ¬ ((toNatDigits a : Int) - (toNatDigits b : Int)) < 0 by omega),
        if_neg (show ¬ (0 : Int) < (toNatDigits a : Int) - (toNatDigits b : Int) by omega),
        if_neg h1, if_neg h2]

theorem cmpIds_num_alpha {a b : List Char} (ha : isdigitL a = true)
    (hb : isdigitL b = false) : cmpIds a b = -1 := by
  simp [cmpIds, ha, hb]

theorem cmpIds_alpha_num {a b : List Char} (ha : isdigitL a = false)
    (hb : isdigitL b = true) : cmpIds a b = 1 := by
  simp [cmpIds, ha, hb]

theorem cmpIds_alpha {a b : List Char} (ha : isdigitL a = false)
    (hb : isdigitL b = false) :
    cmpIds a b = if pyStrLt a b then -1 else if pyStrLt b a then 1 else 0 := by
  simp [cmpIds, ha, hb]

theorem cmpIds_self (a : List Char) : cmpIds a a = 0 := by
  cases ha : isdigitL a
  · rw [cmpIds_alpha ha ha, pyStrLt_irrefl]
    simp
  · rw [cmpIds_num ha ha]
    simp

theorem cmpIds_antisym (a b : List Char) : cmpIds a b = -(cmpIds b a) := by
  cases ha : isdigitL a <;> cases hb : isdigitL b
  · rw [cmpIds_alpha ha hb, cmpIds_alpha hb ha]
    cases hab : pyStrLt a b <;> cases hba : pyStrLt b a
    · simp
    · simp
    · simp
    · have := pyStrLt_asymm a b hab
      rw [hba] at this
      exact absurd this (by simp)
  · rw [cmpIds_alpha_num ha hb, cmpIds_num_alpha hb ha]
    decide
  · rw [cmpIds_num_alpha ha hb, cmpIds_alpha_num hb ha]
  · rw [cmpIds_num ha hb, cmpIds_num hb ha]
    rcases lt_trichotomy (toNatDigits a) (toNatDigits b) with h | h | h
    · rw [if_pos h, if_neg (show ¬ toNatDigits b < toNatDigits a by omega), if_pos h]
    · rw [if_neg (by omega), if_neg (by omega), if_neg (by omega), if_neg (by omega)]
      decide
    · rw [if_neg (show ¬ toNatDigits a < toNatDigits b by omega), if_pos h, if_pos h]
      decide

theorem cmpIds_cases (a b : List Char) :
    cmpIds a b = -1 ∨ cmpIds a b = 0 ∨ cmpIds a b = 1 := by
  cases ha : isdigitL a <;> cases hb : isdigitL b
  · rw [cmpIds_alpha ha hb]
    split
    · simp
    · split <;> simp
  · rw [cmpIds_alpha_num ha hb]
    simp
  · rw [cmpIds_num_alpha ha hb]
    simp
  · rw [cmpIds_num ha hb]
    split
    · simp
    · split <;> simp

theorem isdigitL_digits {a : List Char} (h : isdigitL a = true) :
    ∀ c ∈ a, c.isDigit = true := by
  simp only [isdigitL, Bool.and_eq_true, List.all_eq_true] at h
  exact fun c hc => h.2 c hc

/-- A zero comparison makes two identifiers interchangeable against any
third identifier. -/
theorem cmpIds_zero_congr {a b : List Char} (h : cmpIds a b = 0) :
    ∀ x, cmpIds a x = cmpIds b x := by
  intro x
  cases ha : isdigitL a <;> cases hb : isdigitL b
  · have he : a = b := by
      rw [cmpIds_alpha ha hb] at h
      split at h
      · exact absurd h (by simp)
      · split at h
        · exact absurd h (by simp)
        · exact pyStrLt_total_eq a b (by simp_all) (by simp_all)
    rw [he]
  · rw [cmpIds_alpha_num ha hb] at h
    exact absurd h (by simp)
  · rw [cmpIds_num_alpha ha hb] at h
    exact absurd h (by simp)
  · have hv : toNatDigits a = toNatDigits b := by
      rw [cmpIds_num ha hb] at h
      split at h
      · exact absurd h (by simp)
      · split at h
        · exact absurd h (by simp)
        · omega
    cases hx : isdigitL x
    · rw [cmpIds_num_alpha ha hx, cmpIds_num_alpha hb hx]
    · rw [cmpIds_num ha hx, cmpIds_num hb hx, hv]

theorem cmpIds_zero_congr_right {b c : List Char} (h : cmpIds b c = 0) :
    ∀ x, cmpIds x b = cmpIds x c := by
  intro x
  have h1 := cmpIds_antisym x b
  have h2 := cmpIds_antisym x c
  have h3 := cmpIds_zero_congr h x
  omega

theorem cmpIds_trans_neg {a b c : List Char} (hab : cmpIds a b = -1)
    (hbc : cmpIds b c = -1) : cmpIds a c = -1 := by
  cases ha : isdigitL a <;> cases hb : isdigitL b <;> cases hc : isdigitL c
  · -- all alphanumeric: lexicographic transitivity
    rw [cmpIds_alpha ha hb] at hab
    rw [cmpIds_alpha hb hc] at hbc
    rw [cmpIds_alpha ha hc]
    have h1 : pyStrLt a b = true := by
      by_contra hl
      rw [if_neg hl] at hab
      split at hab
      · exact absurd hab (by decide)
      · exact absurd hab (by decide)
    have h2 : pyStrLt b c = true := by
      by_contra hl
      rw [if_neg hl] at hbc
      split at hbc
      · exact absurd hbc (by decide)
      · exact absurd hbc (by decide)
    rw [if_pos (pyStrLt_trans a b c h1 h2)]
  · rw [cmpIds_alpha_num hb hc] at hbc
    exact absurd hbc (by simp)
  · rw [cmpIds_alpha_num ha hb] at hab
    exact absurd hab (by simp)
  · rw [cmpIds_alpha_num ha hb] at hab
    exact absurd hab (by simp)
  · rw [cmpIds_num_alpha ha hc]
  · rw [cmpIds_alpha_num hb hc] at hbc
    exact absurd hbc (by decide)
  · rw [cmpIds_num_alpha ha hc]
  · -- all numeric: integer transitivity
    rw [cmpIds_num ha hb] at hab
    rw [cmpIds_num hb hc] at hbc
    rw [cmpIds_num ha hc]
    have h1 : toNatDigits a < toNatDigits b := by
      by_contra hcon
      rw [if_neg hcon] at hab
      split at hab
      · exact absurd hab (by decide)
      · exact absurd hab (by decide)
    have h2 : toNatDigits b < toNatDigits c := by
      by_contra hcon
      rw [if_neg hcon] at hbc
      split at hbc
      · exact absurd hbc (by decide)
      · exact absurd hbc (by decide)
    rw [if_pos (by omega)]

/-! ### Order facts about identifier chain comparison -/

theorem cmpIdLists_self : ∀ l, cmpIdLists l l = 0 := by
  intro l
  induction l with
  | nil => rfl
  | cons a t ih => simp [cmpIdLists, cmpIds_self, ih]

theorem cmpIdLists_antisym : ∀ l1 l2, cmpIdLists l1 l2 = -(cmpIdLists l2 l1) := by
  intro l1
  induction l1 with
  | nil =>
    intro l2
    cases l2 <;> simp [cmpIdLists]
  | cons a t ih =>
    intro l2
    cases l2 with
    | nil => simp [cmpIdLists]
    | cons b u =>
      simp only [cmpIdLists]
      by_cases h : cmpIds a b = 0
      · have h2 : cmpIds b a = 0 := by
          have := cmpIds_antisym a b
          omega
        rw [if_pos h, if_pos h2]
        exact ih u
      · have h2 : ¬ cmpIds b a = 0 := by
          have := cmpIds_antisym a b
          omega
        rw [if_neg h, if_neg h2]
        exact cmpIds_antisym a b

theorem cmpIdLists_trans_neg : ∀ l1 l2 l3, cmpIdLists l1 l2 = -1 →
    cmpIdLists l2 l3 = -1 → cmpIdLists l1 l3 = -1 := by
  intro l1
  induction l1 with
  | nil =>
    intro l2 l3 h12 h23
    cases l3 with
    | nil =>
      cases l2 with
      | nil => exact h12
      | cons b u => simp [cmpIdLists] at h23
    | cons c w => rfl
  | cons a t ih =>
    intro l2 l3 h12 h23
    cases l2 with
    | nil => simp [cmpIdLists] at h12
    | cons b u =>
      cases l3 with
      | nil => simp [cmpIdLists] at h23
      | cons c w =>
        simp only [cmpIdLists] at h12 h23 ⊢
        by_cases hab : cmpIds a b = 0 <;> by_cases hbc : cmpIds b c = 0
        · have hac : cmpIds a c = 0 := by
            rw [cmpIds_zero_congr hab c, hbc]
          simp only [hab, hbc, if_true] at h12 h23
          simp only [hac, if_true]
          exact ih u w h12 h23
        · have hac : ¬ cmpIds a c = 0 := by rw [cmpIds_zero_congr hab c]; exact hbc
          rw [if_neg hbc] at h23
          rw [if_neg hac, cmpIds_zero_congr hab c]
          exact h23
        · have h12x : cmpIds a b = -1 := by rwa [if_neg hab] at h12
          have hac : cmpIds a c = -1 := by
            rw [← cmpIds_zero_congr_right hbc a]
            exact h12x
          rw [if_neg (by omega), hac]
        · have h12x : cmpIds a b = -1 := by rwa [if_neg hab] at h12
          have h23x : cmpIds b c = -1 := by rwa [if_neg hbc] at h23
          have hac := cmpIds_trans_neg h12x h23x
          rw [if_neg (by omega), hac]

theorem cmpIdLists_cases : ∀ l1 l2, cmpIdLists l1 l2 = -1 ∨ cmpIdLists l1 l2 = 0 ∨
    cmpIdLists l1 l2 = 1 := by
  intro l1
  induction l1 with
  | nil =>
    intro l2
    cases l2 <;> simp [cmpIdLists]
  | cons a t ih =>
    intro l2
    cases l2 with
    | nil => simp [cmpIdLists]
    | cons b u =>
      simp only [cmpIdLists]
      by_cases h : cmpIds a b = 0
      · rw [if_pos h]
        exact ih u
      · rw [if_neg h]
        rcases cmpIds_cases a b with hc | hc | hc
        · exact Or.inl hc
        · exact absurd hc h
        · exact Or.inr (Or.inr hc)

/-! ### Order facts about precedence comparison -/

theorem coreLtB_iff {a b : SemanticVersion} : coreLtB a b = true ↔
    (a.major < b.major ∨ (a.major = b.major ∧ (a.minor < b.minor ∨
      (a.minor = b.minor ∧ a.patch < b.patch)))) := by
  simp only [coreLtB]
  split_ifs with h1 h2 h3 h4 <;> simp <;> omega

theorem coreLtB_irrefl (a : SemanticVersion) : coreLtB a a = false := by
  rw [Bool.eq_false_iff]
  intro h
  have := coreLtB_iff.mp h
  omega

theorem coreLtB_asymm {a b : SemanticVersion} (h : coreLtB a b = true) :
    coreLtB b a = false := by
  rw [Bool.eq_false_iff]
  intro h2
  have := coreLtB_iff.mp h
  have := coreLtB_iff.mp h2
  omega

theorem coreLtB_trans {a b c : SemanticVersion} (h1 : coreLtB a b = true)
    (h2 : coreLtB b c = true) : coreLtB a c = true := by
  rw [coreLtB_iff] at *
  omega

theorem coreLtB_eq {a b : SemanticVersion} (h1 : coreLtB a b = false)
    (h2 : coreLtB b a = false) :
    a.major = b.major ∧ a.minor = b.minor ∧ a.patch = b.patch := by
  have n1 : ¬ (coreLtB a b = true) := by simp [h1]
  have n2 : ¬ (coreLtB b a = true) := by simp [h2]
  rw [coreLtB_iff] at n1 n2
  omega

theorem bool_false {x : Bool} (h : ¬ x = true) : x = false := by
  cases x
  · rfl
  · exact absurd rfl h

/-- Normal forms of compare_precedence for each shape of the two
pre-release options. -/
theorem cp_none_none {a b : SemanticVersion} (ha : a.prerelease = none)
    (hb : b.prerelease = none) :
    compare_precedence a b =
      if coreLtB a b then -1 else if coreLtB b a then 1 else 0 := by
  simp [compare_precedence, is_prerelease, ha, hb]

theorem cp_none_some {a b : SemanticVersion} {q : List Char}
    (ha : a.prerelease = none) (hb : b.prerelease = some q) :
    compare_precedence a b =
      if coreLtB a b then -1 else if coreLtB b a then 1 else 1 := by
  simp [compare_precedence, is_prerelease, ha, hb]

theorem cp_some_none {a b : SemanticVersion} {p : List Char}
    (ha : a.prerelease = some p) (hb : b.prerelease = none) :
    compare_precedence a b =
      if coreLtB a b then -1 else if coreLtB b a then 1 else -1 := by
  simp [compare_precedence, is_prerelease, ha, hb]

theorem cp_some_some {a b : SemanticVersion} {p q : List Char}
    (ha : a.prerelease = some p) (hb : b.prerelease = some q) :
    compare_precedence a b =
      if coreLtB a b then -1 else if coreLtB b a then 1
      else cmpIdLists (splitDot p) (splitDot q) := by
  simp [compare_precedence, is_prerelease, ha, hb, compare_prerelease_identifiers]

theorem cp_refl (a : SemanticVersion) : compare_precedence a a = 0 := by
  rcases ha : a.prerelease with _ | p
  · rw [cp_none_none ha ha, coreLtB_irrefl]
    simp
  · rw [cp_some_some ha ha, coreLtB_irrefl]
    simp [cmpIdLists_self]

/-- Sign antisymmetry of the two-sided if-chain around any antisymmetric
tail pair. -/
theorem ite_core_antisym {a b : SemanticVersion} {tab tba : Int}
    (ht : tab = -tba) :
    (if coreLtB a b then (-1 : Int) else if coreLtB b a then 1 else tab) =
      -(if coreLtB b a then (-1 : Int) else if coreLtB a b then 1 else tba) := by
  cases hab : coreLtB a b
  · cases hba : coreLtB b a
    · simpa using ht
    · simp
  · rw [coreLtB_asymm hab]
    simp

theorem cp_antisym (a b : SemanticVersion) :
    compare_precedence a b = -(compare_precedence b a) := by
  rcases ha : a.prerelease with _ | p <;> rcases hb : b.prerelease with _ | q
  · rw [cp_none_none ha hb, cp_none_none hb ha]
    exact ite_core_antisym (by decide)
  · rw [cp_none_some ha hb, cp_some_none hb ha]
    exact ite_core_antisym (by decide)
  · rw [cp_some_none ha hb, cp_none_some hb ha]
    exact ite_core_antisym (by decide)
  · rw [cp_some_some ha hb, cp_some_some hb ha]
    exact ite_core_antisym (cmpIdLists_antisym _ _)

/-- Transitivity of the two-sided if-chain, given transitivity of the
tails at strict comparisons. -/
theorem ite_core_trans {a b c : SemanticVersion} {tab tbc tac : Int}
    (hcomp : tab = -1 → tbc = -1 → tac = -1)
    (h1 : (if coreLtB a b then (-1 : Int) else if coreLtB b a then 1 else tab) = -1)
    (h2 : (if coreLtB b c then (-1 : Int) else if coreLtB c b then 1 else tbc) = -1) :
    (if coreLtB a c then (-1 : Int) else if coreLtB c a then 1 else tac) = -1 := by
  by_cases hab : coreLtB a b = true
  · by_cases hbc : coreLtB b c = true
    · rw [if_pos (coreLtB_trans hab hbc)]
    · -- the cores of b and c tie
      rw [if_neg hbc] at h2
      by_cases hcb : coreLtB c b = true
      · rw [if_pos hcb] at h2
        exact absurd h2 (by decide)
      · have e := coreLtB_eq (bool_false hbc) (bool_false hcb)
        have hac : coreLtB a c = true := by
          rw [coreLtB_iff]
          have := coreLtB_iff.mp hab
          omega
        rw [if_pos hac]
  · rw [if_neg hab] at h1
    by_cases hba : coreLtB b a = true
    · rw [if_pos hba] at h1
      exact absurd h1 (by decide)
    · rw [if_neg hba] at h1
      have e1 := coreLtB_eq (bool_false hab) (bool_false hba)
      by_cases hbc : coreLtB b c = true
      · have hac : coreLtB a c = true := by
          rw [coreLtB_iff]
          have := coreLtB_iff.mp hbc
          omega
        rw [if_pos hac]
      · rw [if_neg hbc] at h2
        by_cases hcb : coreLtB c b = true
        · rw [if_pos hcb] at h2
          exact absurd h2 (by decide)
        · rw [if_neg hcb] at h2
          have e2 := coreLtB_eq (bool_false hbc) (bool_false hcb)
          have hac : coreLtB a c = false := by
            rw [Bool.eq_false_iff]
            intro hx
            have := coreLtB_iff.mp hx
            omega
          have hca : coreLtB c a = false := by
            rw [Bool.eq_false_iff]
            intro hx
            have := coreLtB_iff.mp hx
            omega
          rw [hac, hca]
          simp only [Bool.false_eq_true, if_false]
          exact hcomp h1 h2

theorem cp_trans_neg {a b c : SemanticVersion} (h1 : compare_precedence a b = -1)
    (h2 : compare_precedence b c = -1) : compare_precedence a c = -1 := by
  rcases ha : a.prerelease with _ | p <;> rcases hb : b.prerelease with _ | q <;>
    rcases hc : c.prerelease with _ | r
  · rw [cp_none_none ha hb] at h1
    rw [cp_none_none hb hc] at h2
    rw [cp_none_none ha hc]
    exact ite_core_trans (by decide) h1 h2
  · rw [cp_none_none ha hb] at h1
    rw [cp_none_some hb hc] at h2
    rw [cp_none_some ha hc]
    exact ite_core_trans (by decide) h1 h2
  · rw [cp_none_some ha hb] at h1
    rw [cp_some_none hb hc] at h2
    rw [cp_none_none ha hc]
    exact ite_core_trans (by decide) h1 h2
  · rw [cp_none_some ha hb] at h1
    rw [cp_some_some hb hc] at h2
    rw [cp_none_some ha hc]
    exact ite_core_trans (fun h _ => h) h1 h2
  · rw [cp_some_none ha hb] at h1
    rw [cp_none_none hb hc] at h2
    rw [cp_some_none ha hc]
    exact ite_core_trans (by decide) h1 h2
  · rw [cp_some_none ha hb] at h1
    rw [cp_none_some hb hc] at h2
    rw [cp_some_some ha hc]
    exact ite_core_trans (fun _ h => absurd h (by decide)) h1 h2
  · rw [cp_some_some ha hb] at h1
    rw [cp_some_none hb hc] at h2
    rw [cp_some_none ha hc]
    exact ite_core_trans (fun _ _ => rfl) h1 h2
  · rw [cp_some_some ha hb] at h1
    rw [cp_some_some hb hc] at h2
    rw [cp_some_some ha hc]
    exact ite_core_trans (fun u v => cmpIdLists_trans_neg _ _ _ u v) h1 h2

theorem cp_cases (a b : SemanticVersion) : compare_precedence a b = -1 ∨
    compare_precedence a b = 0 ∨ compare_precedence a b = 1 := by
  rcases ha : a.prerelease with _ | p <;> rcases hb : b.prerelease with _ | q
  · rw [cp_none_none ha hb]
    split
    · simp
    · split <;> simp
  · rw [cp_none_some ha hb]
    split
    · simp
    · split <;> simp
  · rw [cp_some_none ha hb]
    split
    · simp
    · split <;> simp
  · rw [cp_some_some ha hb]
    split
    · simp
    · split
      · simp
      · exact cmpIdLists_cases _ _

/-- A pre-release compares strictly below the plain release carrying the
same core triple. -/
theorem cp_pre_lt_release {a : SemanticVersion} {p : List Char}
    (ha : a.prerelease = some p) (b : SemanticVersion)
    (hmaj : b.major = a.major) (hmin : b.minor = a.minor)
    (hpat : b.patch = a.patch) (hb : b.prerelease = none) :
    compare_precedence a b = -1 := by
  rw [cp_some_none ha hb]
  have h1 : coreLtB a b = false := by
    rw [Bool.eq_false_iff]
    intro hx
    have := coreLtB_iff.mp hx
    omega
  have h2 : coreLtB b a = false := by
    rw [Bool.eq_false_iff]
    intro hx
    have := coreLtB_iff.mp hx
    omega
  rw [h1, h2]
  simp

/-! ### Claim C5 -/

/-- C5: compare_precedence is a total order on parsed versions: it is
reflexive, sign-antisymmetric (so a below b holds exactly when b above a,
and at most one of the three outcomes holds since the comparison takes
only the values -1, 0, 1), transitive on strict comparisons, and every
pre-release version compares strictly below the release carrying the
same major.minor.patch triple. -/
theorem C5_total_order (a b c : SemanticVersion) :
    compare_precedence a a = 0 ∧
    compare_precedence a b = -(compare_precedence b a) ∧
    (compare_precedence a b = -1 ∨ compare_precedence a b = 0 ∨
      compare_precedence a b = 1) ∧
    (compare_precedence a b = -1 → compare_precedence b c = -1 →
      compare_precedence a c = -1) ∧
    (∀ p, a.prerelease = some p →
      compare_precedence a ⟨a.major, a.minor, a.patch, none, a.metadata, a.pfx⟩ = -1) :=
  ⟨cp_refl a, cp_antisym a b, cp_cases a b, fun h1 h2 => cp_trans_neg h1 h2,
    fun _ hp => cp_pre_lt_release hp _ rfl rfl rfl rfl⟩

/-- Witness for C5 at concrete versions: transitivity applied across
1.0.0-alpha, 1.0.0-alpha.1, 1.0.0-beta, and the pre-release-below-release
part applied to 1.0.0-alpha. -/
theorem C5_total_order_witness :
    compare_precedence ⟨1, 0, 0, some "alpha".data, none, []⟩
      ⟨1, 0, 0, some "beta".data, none, []⟩ = -1 ∧
    compare_precedence ⟨1, 0, 0, some "alpha".data, none, []⟩
      ⟨1, 0, 0, none, none, []⟩ = -1 := by
  constructor
  · exact (C5_total_order ⟨1, 0, 0, some "alpha".data, none, []⟩
      ⟨1, 0, 0, some "alpha.1".data, none, []⟩
      ⟨1, 0, 0, some "beta".data, none, []⟩).2.2.2.1 (by decide) (by decide)
  · exact (C5_total_order ⟨1, 0, 0, some "alpha".data, none, []⟩
      ⟨1, 0, 0, some "beta".data, none, []⟩
      ⟨1, 0, 0, some "beta".data, none, []⟩).2.2.2.2 "alpha".data rfl

/-! ### Inversion of the parser -/

theorem numFieldOk_facts {d : List Char} (h : numFieldOk d = true) :
    d ≠ [] ∧ (∀ c ∈ d, c.isDigit = true) ∧ (∀ t, d = '0' :: t → t = []) := by
  cases d with
  | nil => simp [numFieldOk] at h
  | cons c rest =>
    simp only [numFieldOk] at h
    by_cases hc : c = '0'
    · rw [if_pos hc] at h
      have hr : rest = [] := by
        cases rest
        · rfl
        · simp at h
      subst hr
      subst hc
      refine ⟨by simp, ?_, ?_⟩
      · intro x hx
        rw [List.mem_singleton.mp hx]
        decide
      · intro t ht
        injection ht with h1 h2
        exact h2.symm
    · rw [if_neg hc] at h
      simp only [Bool.and_eq_true, List.all_eq_true] at h
      refine ⟨by simp, ?_, ?_⟩
      · intro x hx
        rcases List.mem_cons.mp hx with rfl | hx
        · exact h.1
        · exact h.2 x hx
      · intro t ht
        exact absurd (List.head_eq_of_cons_eq ht) hc

theorem natStr_of_numField {d : List Char} (h : numFieldOk d = true) :
    natStr (toNatDigits d) = d := by
  obtain ⟨h1, h2, h3⟩ := numFieldOk_facts h
  exact natStr_canonical d h1 h2 h3

theorem dottedIdentsOk_ne_nil {s : List Char} (h : dottedIdentsOk s = true) :
    s ≠ [] := by
  rintro rfl
  simp [dottedIdentsOk, splitDot] at h

/-- Rendering of an optional pre-release segment as it appears in the
source text. -/
def preSeg : Option (List Char) → List Char
  | some p => '-' :: p
  | none => []

/-- Rendering of an optional metadata segment as it appears in the
source text. -/
def metaSeg : Option (List Char) → List Char
  | some m => '+' :: m
  | none => []

theorem matchTail_inv {rest : List Char} {pr mt : Option (List Char)}
    (h : matchTail rest = some (pr, mt)) :
    rest = preSeg pr ++ metaSeg mt ∧
    (∀ p, pr = some p → dottedIdentsOk p = true) ∧
    (∀ m, mt = some m → dottedIdentsOk m = true) := by
  cases rest with
  | nil =>
    simp only [matchTail, Option.some.injEq, Prod.mk.injEq] at h
    obtain ⟨rfl, rfl⟩ := h
    exact ⟨rfl, by simp, by simp⟩
  | cons c rr =>
    simp only [matchTail] at h
    by_cases hc : c = '-'
    · rw [if_pos hc] at h
      subst hc
      by_cases hok : dottedIdentsOk (rr.takeWhile (· ≠ '+')) = true
      · rw [if_pos hok] at h
        have hsplit : rr.takeWhile (· ≠ '+') ++ rr.dropWhile (· ≠ '+') = rr :=
          List.takeWhile_append_dropWhile _ _
        cases h2 : rr.dropWhile (· ≠ '+') with
        | nil =>
          rw [h2] at h hsplit
          simp only [Option.some.injEq, Prod.mk.injEq] at h
          obtain ⟨rfl, rfl⟩ := h
          refine ⟨?_, ?_, by simp⟩
          · simp only [preSeg, metaSeg, List.append_nil] at hsplit ⊢
            rw [hsplit]
          · intro p hp
            rw [← Option.some.inj hp]
            exact hok
        | cons c2 mm =>
          rw [h2] at h hsplit
          replace h : (if c2 = '+' then
              (if dottedIdentsOk mm = true then
                some (some (rr.takeWhile (· ≠ '+')), some mm) else none)
              else none) = some (pr, mt) := h
          by_cases hc2 : c2 = '+'
          · rw [if_pos hc2] at h
            subst hc2
            by_cases hok2 : dottedIdentsOk mm = true
            · rw [if_pos hok2] at h
              simp only [Option.some.injEq, Prod.mk.injEq] at h
              obtain ⟨rfl, rfl⟩ := h
              refine ⟨?_, ?_, ?_⟩
              · simp only [preSeg, metaSeg, List.cons_append]
                rw [show rr.takeWhile (· ≠ '+') ++ '+' :: mm = rr from hsplit]
              · intro p hp
                rw [← Option.some.inj hp]
                exact hok
              · intro m hm
                rw [← Option.some.inj hm]
                exact hok2
            · rw [if_neg hok2] at h
              exact absurd h (by simp)
          · rw [if_neg hc2] at h
            exact absurd h (by simp)
      · rw [if_neg hok] at h
        exact absurd h (by simp)
    · rw [if_neg hc] at h
      by_cases hp : c = '+'
      · rw [if_pos hp] at h
        subst hp
        by_cases hok : dottedIdentsOk rr = true
        · rw [if_pos hok] at h
          simp only [Option.some.injEq, Prod.mk.injEq] at h
          obtain ⟨rfl, rfl⟩ := h
          refine ⟨rfl, by simp, ?_⟩
          intro m hm
          rw [← Option.some.inj hm]
          exact hok
        · rw [if_neg hok] at h
          exact absurd h (by simp)
      · rw [if_neg hp] at h
        exact absurd h (by simp)

theorem to_string_true_nil {v : SemanticVersion} (h : v.pfx = []) :
    to_string v true = to_string v false := by
  simp [to_string, h]

theorem to_string_true_pfx {v : SemanticVersion} (h : v.pfx.isEmpty = false) :
    to_string v true = v.pfx ++ to_string v false := by
  simp [to_string, h]

theorem matchBody_inv {body pfx : List Char} {v : SemanticVersion}
    (h : matchBody body pfx = some v) :
    to_string v false = body ∧ v.pfx = pfx ∧
    (∀ p, v.prerelease = some p → dottedIdentsOk p = true) ∧
    (∀ m, v.metadata = some m → dottedIdentsOk m = true) := by
  simp only [matchBody] at h
  have hsplit : (body.takeWhile fun c => !(c = '-' || c = '+')) ++
      (body.dropWhile fun c => !(c = '-' || c = '+')) = body :=
    List.takeWhile_append_dropWhile _ _
  rcases hs : splitDot (body.takeWhile fun c => !(c = '-' || c = '+')) with
    _ | ⟨majS, _ | ⟨minS, _ | ⟨patS, _ | ⟨x4, t4⟩⟩⟩⟩ <;> rw [hs] at h
  · exact Option.noConfusion h
  · exact Option.noConfusion h
  · exact Option.noConfusion h
  case cons.cons.cons.cons => exact Option.noConfusion h
  case cons.cons.cons.nil =>
  replace h : (if (numFieldOk majS && numFieldOk minS && numFieldOk patS) = true then
      (match matchTail (body.dropWhile fun c => !(c = '-' || c = '+')) with
        | some (pre?, meta?) =>
          some ⟨toNatDigits majS, toNatDigits minS, toNatDigits patS, pre?, meta?, pfx⟩
        | none => none)
      else none) = some v := h
  by_cases hnum : (numFieldOk majS && numFieldOk minS && numFieldOk patS) = true
  swap
  · rw [if_neg hnum] at h
    exact Option.noConfusion h
  · rw [if_pos hnum] at h
    simp only [Bool.and_eq_true] at hnum
    obtain ⟨⟨hnM, hnm⟩, hnp⟩ := hnum
    rcases ht : matchTail (body.dropWhile fun c => !(c = '-' || c = '+')) with
      _ | ⟨pre?, meta?⟩ <;> rw [ht] at h
    · exact Option.noConfusion h
    · have hv : (⟨toNatDigits majS, toNatDigits minS, toNatDigits patS,
          pre?, meta?, pfx⟩ : SemanticVersion) = v := Option.some.inj h
      subst hv
      obtain ⟨hseg, hpok, hmok⟩ := matchTail_inv ht
      have hcore : (body.takeWhile fun c => !(c = '-' || c = '+')) =
          majS ++ '.' :: (minS ++ '.' :: patS) := by
        have := joinDot_splitDot (body.takeWhile fun c => !(c = '-' || c = '+'))
        rw [hs] at this
        simp only [joinDot] at this
        exact this.symm
      constructor
      · show to_string ⟨toNatDigits majS, toNatDigits minS, toNatDigits patS,
          pre?, meta?, pfx⟩ false = body
        rw [← hsplit, hcore, hseg]
        simp only [to_string, natStr_of_numField hnM, natStr_of_numField hnm,
          natStr_of_numField hnp]
        rcases pre? with _ | p <;> rcases meta? with _ | m
        · simp [preSeg, metaSeg]
        · have hm := hmok m rfl
          have h2 : m.isEmpty = false := by
            rw [List.isEmpty_eq_false]
            exact dottedIdentsOk_ne_nil hm
          simp [preSeg, metaSeg, h2]
        · have hp := hpok p rfl
          have h1 : p.isEmpty = false := by
            rw [List.isEmpty_eq_false]
            exact dottedIdentsOk_ne_nil hp
          simp [preSeg, metaSeg, h1]
        · have hp := hpok p rfl
          have hm := hmok m rfl
          have h1 : p.isEmpty = false := by
            rw [List.isEmpty_eq_false]
            exact dottedIdentsOk_ne_nil hp
          have h2 : m.isEmpty = false := by
            rw [List.isEmpty_eq_false]
            exact dottedIdentsOk_ne_nil hm
          simp [preSeg, metaSeg, h1, h2]
      · exact ⟨rfl, hpok, hmok⟩

theorem matchSemver_inv {t : List Char} {v : SemanticVersion}
    (h : matchSemver t = some v) :
    to_string v true = t ∧
    (∀ p, v.prerelease = some p → dottedIdentsOk p = true) ∧
    (∀ m, v.metadata = some m → dottedIdentsOk m = true) := by
  cases t with
  | nil =>
    replace h : matchBody [] [] = some v := h
    obtain ⟨hts, hpfx, hpok, hmok⟩ := matchBody_inv h
    exact ⟨by rw [to_string_true_nil hpfx, hts], hpok, hmok⟩
  | cons c r =>
    replace h : (if c = 'v' ∨ c = 'V' then matchBody r [c]
        else matchBody (c :: r) []) = some v := h
    by_cases hc : c = 'v' ∨ c = 'V'
    · rw [if_pos hc] at h
      obtain ⟨hts, hpfx, hpok, hmok⟩ := matchBody_inv h
      refine ⟨?_, hpok, hmok⟩
      rw [to_string_true_pfx (by rw [hpfx]; rfl), hpfx, hts]
      rfl
    · rw [if_neg hc] at h
      obtain ⟨hts, hpfx, hpok, hmok⟩ := matchBody_inv h
      exact ⟨by rw [to_string_true_nil hpfx, hts], hpok, hmok⟩

theorem parse_matchSemver {s : List Char} {v : SemanticVersion}
    (h : parse s = some v) : matchSemver (pyStrip s) = some v := by
  simp only [parse] at h
  split_ifs at h
  exact h

/-! ### Claim C4 -/

/-- C4 (counterexample): the input with a leading space is accepted by
the parser, but formatting the parsed record reproduces the trimmed
text, not the original character for character. -/
theorem C4_counterexample :
    parse " 1.2.3".data = some ⟨1, 2, 3, none, none, []⟩ ∧
    to_string ⟨1, 2, 3, none, none, []⟩ true = "1.2.3".data ∧
    "1.2.3".data ≠ " 1.2.3".data := by decide

/-- C4 (amended): for every string the parser accepts, formatting the
parsed record with the prefix included reproduces the whitespace-trimmed
input exactly, character for character, including metadata and the v/V
prefix. -/
theorem C4_roundtrip {s : List Char} {v : SemanticVersion} (h : parse s = some v) :
    to_string v true = pyStrip s :=
  (matchSemver_inv (parse_matchSemver h)).1

/-- Witness for C4 at a concrete input carrying a prefix, a pre-release
chain and metadata. -/
theorem C4_roundtrip_witness :
    to_string ⟨1, 2, 3, some "alpha.1".data, some "build".data, "v".data⟩ true =
      pyStrip "v1.2.3-alpha.1+build".data :=
  C4_roundtrip (by decide)

/-! ### Claim C9 -/

theorem length_dropWhile_le (p : Char → Bool) (l : List Char) :
    (l.dropWhile p).length ≤ l.length :=
  (List.dropWhile_suffix p).sublist.length_le

theorem dropWhile_dropWhile {p : Char → Bool} : ∀ l : List Char,
    (l.dropWhile p).dropWhile p = l.dropWhile p := by
  intro l
  induction l with
  | nil => rfl
  | cons c t ih =>
    by_cases hc : p c = true
    · rw [List.dropWhile_cons_of_pos hc, ih]
    · rw [List.dropWhile_cons_of_neg hc, List.dropWhile_cons_of_neg hc]

theorem dropWhile_of_prefix {p : Char → Bool} {x l : List Char}
    (hx : x <+: l) (hl : l.dropWhile p = l) : x.dropWhile p = x := by
  cases x with
  | nil => rfl
  | cons c t =>
    obtain ⟨r, hr⟩ := hx
    have hc : p c = false := by
      by_contra hcon
      have hc' : p c = true := by
        cases hpc : p c
        · exact absurd hpc hcon
        · rfl
      rw [← hr, List.cons_append, List.dropWhile_cons_of_pos hc'] at hl
      have hlen2 := congrArg List.length hl
      rw [List.length_cons] at hlen2
      have hle := length_dropWhile_le p (t ++ r)
      omega
    rw [List.dropWhile_cons_of_neg (by simp [hc])]

theorem pyStrip_idem (s : List Char) : pyStrip (pyStrip s) = pyStrip s := by
  have hinner : (pyStrip s).dropWhile pyIsSpace = pyStrip s := by
    have hpre : pyStrip s <+: s.dropWhile pyIsSpace := by
      rw [pyStrip, ← List.reverse_suffix]
      simp only [List.reverse_reverse]
      exact List.dropWhile_suffix _
    exact dropWhile_of_prefix hpre (dropWhile_dropWhile s)
  rw [show pyStrip (pyStrip s) =
    (((pyStrip s).dropWhile pyIsSpace).reverse.dropWhile pyIsSpace).reverse from rfl]
  rw [hinner, pyStrip, List.reverse_reverse, dropWhile_dropWhile]

theorem pyStrip_length_le (s : List Char) : (pyStrip s).length ≤ s.length := by
  rw [pyStrip]
  calc (((s.dropWhile pyIsSpace).reverse.dropWhile pyIsSpace).reverse).length
      = ((s.dropWhile pyIsSpace).reverse.dropWhile pyIsSpace).length := by
        rw [List.length_reverse]
    _ ≤ (s.dropWhile pyIsSpace).reverse.length := length_dropWhile_le _ _
    _ = (s.dropWhile pyIsSpace).length := by rw [List.length_reverse]
    _ ≤ s.length := length_dropWhile_le _ _

set_option maxRecDepth 100000 in
/-- C9 (counterexample): a 1001-character input whose trimmed form
matches the grammar is rejected outright, because the length guard runs
on the raw input before stripping. -/
theorem C9_counterexample :
    parse (List.replicate 996 ' ' ++ "1.2.3".data) = none ∧
    matchSemver (pyStrip (List.replicate 996 ' ' ++ "1.2.3".data)) =
      some ⟨1, 2, 3, none, none, []⟩ := by decide

/-- C9 (amended): for every input within the 1000-character cap, parsing
the raw string and parsing its whitespace-trimmed form give the same
result, so surrounding whitespace within the cap is silently discarded
and never appears in the parsed record or any formatted output. -/
theorem C9_strip (s : List Char) (hlen : s.length ≤ 1000) :
    parse s = parse (pyStrip s) := by
  by_cases hs : s = []
  · subst hs
    rfl
  · have hslen : ¬ 1000 < s.length := by omega
    have htlen : ¬ 1000 < (pyStrip s).length := by
      have := pyStrip_length_le s
      omega
    have hL : parse s = matchSemver (pyStrip s) := by
      simp only [parse]
      rw [if_neg hs, if_neg hslen, if_neg htlen]
    by_cases ht : pyStrip s = []
    · rw [hL, ht]
      decide
    · have htlen2 : ¬ 1000 < (pyStrip (pyStrip s)).length := by
        rw [pyStrip_idem]
        exact htlen
      have hR : parse (pyStrip s) = matchSemver (pyStrip (pyStrip s)) := by
        simp only [parse]
        rw [if_neg ht, if_neg htlen, if_neg htlen2]
      rw [hL, hR, pyStrip_idem]

/-- Witness for C9 at a concrete padded input. -/
theorem C9_strip_witness : parse " 1.2.3 ".data = parse (pyStrip " 1.2.3 ".data) :=
  C9_strip " 1.2.3 ".data (by decide)

/-! ### Claim C8 -/

/-- C8 (counterexample): the numeric rendering of a version parsed from
a string carrying metadata retains the +metadata suffix. -/
theorem C8_counterexample :
    (parse "v1.2.3+build".data).map numeric_version = some "1.2.3+build".data ∧
    "1.2.3+build".data ≠ "1.2.3".data := by decide

/-- C8 (amended): the numeric rendering excludes the v/V prefix (it
always starts with a digit of the major field) but retains the build
metadata: for a version parsed from a string carrying metadata it is
major.minor.patch with the pre-release chain followed by the +metadata
suffix. -/
theorem C8_numeric {s : List Char} {v : SemanticVersion} (h : parse s = some v)
    {m : List Char} (hm : v.metadata = some m) :
    numeric_version v = natStr v.major ++ '.' :: natStr v.minor ++ '.' :: natStr v.patch ++
      preSeg v.prerelease ++ '+' :: m ∧
    (∀ c t, numeric_version v = c :: t → c.isDigit = true) := by
  obtain ⟨_, hpok, hmok⟩ := matchSemver_inv (parse_matchSemver h)
  have hmne : m.isEmpty = false := by
    rw [List.isEmpty_eq_false]
    exact dottedIdentsOk_ne_nil (hmok m hm)
  have hmain : numeric_version v = natStr v.major ++ '.' :: natStr v.minor ++
      '.' :: natStr v.patch ++ preSeg v.prerelease ++ '+' :: m := by
    rcases hp : v.prerelease with _ | p
    · simp [numeric_version, to_string, hp, hm, hmne, preSeg]
    · have hpne : p.isEmpty = false := by
        rw [List.isEmpty_eq_false]
        exact dottedIdentsOk_ne_nil (hpok p hp)
      simp [numeric_version, to_string, hp, hm, hmne, hpne, preSeg]
  refine ⟨hmain, ?_⟩
  intro c t hct
  rcases hn : natStr v.major with _ | ⟨c0, t0⟩
  · exact absurd hn (natStr_ne_nil _)
  · rw [hmain, hn] at hct
    have he : c0 = c := List.head_eq_of_cons_eq hct
    subst he
    exact natStr_digits v.major c0 (by rw [hn]; exact List.mem_cons_self _ _)

/-- Witness for C8 at a concrete input with prefix and metadata. -/
theorem C8_numeric_witness :
    numeric_version ⟨1, 2, 3, none, some "build".data, "v".data⟩ =
      natStr 1 ++ '.' :: natStr 2 ++ '.' :: natStr 3 ++
        preSeg none ++ '+' :: "build".data ∧
    (∀ c t, numeric_version ⟨1, 2, 3, none, some "build".data, "v".data⟩ = c :: t →
      c.isDigit = true) :=
  @C8_numeric "v1.2.3+build".data ⟨1, 2, 3, none, some "build".data, "v".data⟩
    (by decide) "build".data rfl

/-! ### Claim C6 -/

/-- C6 (counterexample): the string dev maps to the distinct runtime
kind DEV, not to PRERELEASE; dev is therefore not resolved away at the
boundary. -/
theorem C6_counterexample :
    determine_increment_type "dev".data = Except.ok IncrementType.DEV ∧
    IncrementType.DEV ≠ IncrementType.PRERELEASE := by decide

/-- C6 (amended): after lower-casing and trimming, major, minor, patch
and prerelease map to their kinds, pre and prerel are synonyms of
prerelease, dev maps to the distinct runtime kind DEV (which the
increment entry point treats identically to PRERELEASE), and any other
string is rejected with an invalid-kind error. -/
theorem C6_kinds (s : List Char) :
    (determine_increment_type s = .ok .MAJOR ↔ pyStrip (lowerStr s) = "major".data) ∧
    (determine_increment_type s = .ok .MINOR ↔ pyStrip (lowerStr s) = "minor".data) ∧
    (determine_increment_type s = .ok .PATCH ↔ pyStrip (lowerStr s) = "patch".data) ∧
    (determine_increment_type s = .ok .PRERELEASE ↔
      (pyStrip (lowerStr s) = "prerelease".data ∨ pyStrip (lowerStr s) = "pre".data ∨
        pyStrip (lowerStr s) = "prerel".data)) ∧
    (determine_increment_type s = .ok .DEV ↔ pyStrip (lowerStr s) = "dev".data) ∧
    (determine_increment_type s = .error .valueError ↔
      pyStrip (lowerStr s) ∉ (["major".data, "minor".data, "patch".data,
        "prerelease".data, "dev".data, "pre".data, "prerel".data] : List (List Char))) ∧
    (∀ inc v lbl, increment inc v .DEV lbl = increment inc v .PRERELEASE lbl) := by
  simp only [determine_increment_type]
  split_ifs with h1 h2 h3 h4 h5 h6 h7 <;>
    refine ⟨?_, ?_, ?_, ?_, ?_, ?_, fun inc v lbl => rfl⟩ <;>
    simp_all

/-! ### Claim C10 -/

/-- C10: on a version that is already a pre-release, supplying a label
that differs case-insensitively from the leading pre-release identifier
makes increment return exactly label.1 at the unchanged core triple,
for every existing-identifier set, without consulting the availability
oracle. -/
theorem C10_switch (inc : VersionIncrementer) (v : SemanticVersion)
    (p l : List Char) (hp : v.prerelease = some p) (hpne : p.isEmpty = false)
    (hl : l.isEmpty = false)
    (hcur : lowerStr ((splitDot p).headD []) ≠ [])
    (hdiff : lowerStr ((splitDot p).headD []) ≠ lowerStr l) :
    increment inc v .PRERELEASE (some l) =
      .ok ⟨v.major, v.minor, v.patch, some (l ++ ".1".data),
        (if inc.preserve_metadata then v.metadata else none), v.pfx⟩ := by
  have hids : get_prerelease_identifiers v = splitDot p := by
    simp [get_prerelease_identifiers, hp, hpne]
  have hpre : is_prerelease v = true := by
    rw [is_prerelease, hp]
    rfl
  have hsw : switch_condition v l = true := by
    rw [switch_condition, hids]
    simp only [Bool.and_eq_true, Bool.not_eq_true', List.isEmpty_eq_false,
      decide_eq_true_eq]
    exact ⟨hcur, hdiff⟩
  show increment_prerelease inc v (some l) = _
  rw [increment_prerelease, hpre]
  simp only [Bool.not_true, Bool.false_eq_true, if_false]
  rw [if_pos (by simp [hl, hsw])]

/-- Witness for C10: the returned 1.2.3-beta.1 is present in the
existing set yet returned unchanged. -/
theorem C10_switch_witness :
    increment ⟨["1.2.3-beta.1".data], false⟩
      ⟨1, 2, 3, some "alpha.1".data, none, []⟩ .PRERELEASE (some "beta".data) =
      .ok ⟨1, 2, 3, some "beta.1".data, none, []⟩ :=
  C10_switch ⟨["1.2.3-beta.1".data], false⟩ ⟨1, 2, 3, some "alpha.1".data, none, []⟩
    "alpha.1".data "beta".data rfl (by decide) (by decide) (by decide) (by decide)

/-! ### Checked-search lemmas for the incrementer -/

theorem find_avail_aux_ok {inc maj mnr pat ptype meta pfx} :
    ∀ {cnt n c}, find_avail_aux inc maj mnr pat ptype meta pfx cnt n = some c →
      version_exists inc c = false := by
  intro cnt n
  induction n generalizing cnt with
  | zero =>
    intro c h
    exact absurd h (by simp [find_avail_aux])
  | succ n ih =>
    intro c h
    rw [find_avail_aux] at h
    split_ifs at h with hex
    · exact ih h
    · rw [← Option.some.inj h]
      exact bool_false hex

theorem find_available_prerelease_version_ok {inc maj mnr pat ptype start maxAtt meta pfx c}
    (h : find_available_prerelease_version inc maj mnr pat ptype start maxAtt meta pfx =
      some c) : version_exists inc c = false := by
  simp only [find_available_prerelease_version] at h
  exact find_avail_aux_ok h

theorem scan_patch_range_ok {inc maj mnr meta pfx} :
    ∀ {p n c}, scan_patch_range inc maj mnr meta pfx p n = some c →
      version_exists inc c = false := by
  intro p n
  induction n generalizing p with
  | zero =>
    intro c h
    exact absurd h (by simp [scan_patch_range])
  | succ n ih =>
    intro c h
    rw [scan_patch_range] at h
    split_ifs at h with hex
    · exact ih h
    · rw [← Option.some.inj h]
      exact bool_false hex

theorem find_patch_aux_ok {inc v existing} :
    ∀ {p n c}, find_patch_aux inc v existing p n = some c →
      version_exists inc c = false := by
  intro p n
  induction n generalizing p with
  | zero =>
    intro c h
    exact absurd h (by simp [find_patch_aux])
  | succ n ih =>
    intro c h
    rw [find_patch_aux] at h
    split_ifs at h <;> first
      | exact ih h
      | (rw [← Option.some.inj h]; exact bool_false (by assumption))

theorem find_next_available_patch_ok {inc v c}
    (h : find_next_available_patch inc v = some c) : version_exists inc c = false := by
  rw [find_next_available_patch] at h
  exact find_patch_aux_ok h

theorem fnav_loop_ok {inc maj mnr pat ids idx origId meta pfx} :
    ∀ {cnt fuel c}, fnav_loop inc maj mnr pat ids idx origId meta pfx cnt fuel = .ok c →
      version_exists inc c = false := by
  intro cnt fuel
  induction fuel generalizing cnt with
  | zero =>
    intro c h
    rw [fnav_loop] at h
    split_ifs at h <;> first
      | (rw [← Except.ok.inj h]; exact bool_false (by assumption))
      | exact absurd h (by simp)
  | succ fuel ih =>
    intro c h
    rw [fnav_loop] at h
    split_ifs at h <;> first
      | exact ih h
      | (rw [← Except.ok.inj h]; exact bool_false (by assumption))

theorem find_next_available_version_ok {inc base c}
    (hne : (find_numeric_prerelease_components base).getLast? ≠ none)
    (h : find_next_available_version inc base = .ok c) :
    version_exists inc c = false := by
  rw [find_next_available_version] at h
  by_cases hpre : (!is_prerelease base) = true
  · rw [if_pos hpre] at h
    exact absurd h (by simp)
  · rw [if_neg hpre] at h
    rcases hl : (find_numeric_prerelease_components base).getLast? with _ | ⟨⟨idx, origId, nval⟩⟩
    · exact absurd hl hne
    · rw [hl] at h
      exact fnav_loop_ok h

/-- The dot split distributes over appending a dot, with no side
condition. -/
theorem splitDot_append : ∀ (x y : List Char),
    splitDot (x ++ '.' :: y) = splitDot x ++ splitDot y := by
  intro x y
  induction x with
  | nil => rfl
  | cons c r ih =>
    by_cases hc : c = '.'
    · subst hc
      have h1 : splitDot (('.' :: r) ++ '.' :: y) = [] :: splitDot (r ++ '.' :: y) := rfl
      rw [h1, ih]
      rfl
    · have h2 : splitDot ((c :: r) ++ '.' :: y) =
          (match splitDot (r ++ '.' :: y) with
            | h :: t => (c :: h) :: t
            | [] => [[c]]) := by
        show splitDot (c :: (r ++ '.' :: y)) = _
        rw [splitDot, if_neg hc]
      have h3 : splitDot (c :: r) =
          (match splitDot r with
            | h :: t => (c :: h) :: t
            | [] => [[c]]) := by
        rw [splitDot, if_neg hc]
      rw [h2, h3, ih]
      rcases hr : splitDot r with _ | ⟨h1, t1⟩
      · exact absurd hr (splitDot_ne_nil r)
      · rfl

/-- A pre-release chain ending in the numeral one always has a numeric
component, so the last-resort numeral search never hits its unchecked
empty-components branch. -/
theorem comps_ne_none {base : SemanticVersion} {x : List Char}
    (hp : base.prerelease = some (x ++ ".1".data)) :
    (find_numeric_prerelease_components base).getLast? ≠ none := by
  have hne : (x ++ ".1".data).isEmpty = false := by
    rw [List.isEmpty_eq_false]
    intro hcon
    have := congrArg List.length hcon
    simp at this
  have hids : get_prerelease_identifiers base = splitDot x ++ [['1']] := by
    simp only [get_prerelease_identifiers, hp, hne, Bool.false_eq_true, if_false]
    rw [splitDot_append]
    rfl
  have hmem : (['1'] : List Char) ∈ get_prerelease_identifiers base := by
    rw [hids]
    simp
  obtain ⟨⟨i, hi⟩, hget⟩ := List.mem_iff_get.mp hmem
  have hx : (get_prerelease_identifiers base)[i] = (['1'] : List Char) := by
    exact hget
  have henum : (i, (['1'] : List Char)) ∈ (get_prerelease_identifiers base).enum := by
    apply List.mk_mem_enum_iff_getElem?.mpr
    rw [List.getElem?_eq_getElem hi, hx]
  have hcomp : (i, (['1'] : List Char), 1) ∈ find_numeric_prerelease_components base := by
    rw [find_numeric_prerelease_components]
    apply List.mem_filterMap.mpr
    refine ⟨(i, ['1']), henum, ?_⟩
    rfl
  intro hcon
  rcases hnil : find_numeric_prerelease_components base with _ | ⟨a, t⟩
  · rw [hnil] at hcomp
    simp at hcomp
  · rw [hnil] at hcon
    simp [List.getLast?] at hcon

theorem for_conflict_ok {inc base ptype c}
    (h : find_next_available_prerelease_for_conflict inc base ptype = .ok c) :
    version_exists inc c = false := by
  rw [find_next_available_prerelease_for_conflict] at h
  rcases hf : find_available_prerelease_version inc base.major base.minor base.patch
      ptype 1 none base.metadata base.pfx with _ | av
  · rw [hf] at h
    replace h : (if version_exists inc ⟨base.major, base.minor, base.patch + 1,
        some (ptype ++ ".1".data), base.metadata, base.pfx⟩ = true then
        find_next_available_version inc ⟨base.major, base.minor, base.patch + 1,
          some (ptype ++ ".1".data), base.metadata, base.pfx⟩
        else .ok ⟨base.major, base.minor, base.patch + 1,
          some (ptype ++ ".1".data), base.metadata, base.pfx⟩) = .ok c := h
    by_cases hex : version_exists inc ⟨base.major, base.minor, base.patch + 1,
        some (ptype ++ ".1".data), base.metadata, base.pfx⟩ = true
    · rw [if_pos hex] at h
      exact find_next_available_version_ok (comps_ne_none rfl) h
    · rw [if_neg hex] at h
      rw [← Except.ok.inj h]
      exact bool_false hex
  · rw [hf] at h
    rw [← Except.ok.inj h]
    exact find_available_prerelease_version_ok hf

theorem increment_major_ok {inc : VersionIncrementer} {v c : SemanticVersion}
    (h : increment_major inc v = .ok c) : version_exists inc c = false := by
  replace h : (if version_exists inc ⟨v.major + 1, 0, 0, none,
      (if inc.preserve_metadata then v.metadata else none), v.pfx⟩ = true then
      (match scan_patch_range inc (v.major + 1) 0
          (if inc.preserve_metadata then v.metadata else none) v.pfx 1 99 with
        | some nc => Except.ok nc
        | none => find_next_available_prerelease_for_conflict inc ⟨v.major + 1, 0, 0, none,
            (if inc.preserve_metadata then v.metadata else none), v.pfx⟩ "dev".data)
      else .ok ⟨v.major + 1, 0, 0, none,
        (if inc.preserve_metadata then v.metadata else none), v.pfx⟩) = .ok c := h
  by_cases hex : version_exists inc ⟨v.major + 1, 0, 0, none,
      (if inc.preserve_metadata then v.metadata else none), v.pfx⟩ = true
  · rw [if_pos hex] at h
    rcases hscan : scan_patch_range inc (v.major + 1) 0
        (if inc.preserve_metadata then v.metadata else none) v.pfx 1 99 with _ | nc <;>
      rw [hscan] at h
    · exact for_conflict_ok h
    · rw [← Except.ok.inj h]
      exact scan_patch_range_ok hscan
  · rw [if_neg hex] at h
    rw [← Except.ok.inj h]
    exact bool_false hex

theorem increment_minor_ok {inc : VersionIncrementer} {v c : SemanticVersion}
    (h : increment_minor inc v = .ok c) : version_exists inc c = false := by
  replace h : (if version_exists inc ⟨v.major, v.minor + 1, 0, none,
      (if inc.preserve_metadata then v.metadata else none), v.pfx⟩ = true then
      (match scan_patch_range inc v.major (v.minor + 1)
          (if inc.preserve_metadata then v.metadata else none) v.pfx 1 99 with
        | some nc => Except.ok nc
        | none => find_next_available_prerelease_for_conflict inc ⟨v.major, v.minor + 1, 0, none,
            (if inc.preserve_metadata then v.metadata else none), v.pfx⟩ "dev".data)
      else .ok ⟨v.major, v.minor + 1, 0, none,
        (if inc.preserve_metadata then v.metadata else none), v.pfx⟩) = .ok c := h
  by_cases hex : version_exists inc ⟨v.major, v.minor + 1, 0, none,
      (if inc.preserve_metadata then v.metadata else none), v.pfx⟩ = true
  · rw [if_pos hex] at h
    rcases hscan : scan_patch_range inc v.major (v.minor + 1)
        (if inc.preserve_metadata then v.metadata else none) v.pfx 1 99 with _ | nc <;>
      rw [hscan] at h
    · exact for_conflict_ok h
    · rw [← Except.ok.inj h]
      exact scan_patch_range_ok hscan
  · rw [if_neg hex] at h
    rw [← Except.ok.inj h]
    exact bool_false hex

theorem create_conflict_prerelease_ok {inc : VersionIncrementer} {v c : SemanticVersion}
    {ptype : List Char} (h : create_conflict_prerelease inc v ptype = .ok c) :
    version_exists inc c = false := by
  replace h : (if version_exists inc ⟨v.major, v.minor, v.patch + 1,
      some (ptype ++ ".1".data),
      (if inc.preserve_metadata then (if inc.preserve_metadata then v.metadata else none)
        else none), v.pfx⟩ = true then
      find_next_available_prerelease_for_conflict inc ⟨v.major, v.minor, v.patch + 1, none,
        (if inc.preserve_metadata then v.metadata else none), v.pfx⟩ ptype
      else .ok ⟨v.major, v.minor, v.patch + 1, some (ptype ++ ".1".data),
        (if inc.preserve_metadata then (if inc.preserve_metadata then v.metadata else none)
          else none), v.pfx⟩) = .ok c := h
  by_cases hex : version_exists inc ⟨v.major, v.minor, v.patch + 1,
      some (ptype ++ ".1".data),
      (if inc.preserve_metadata then (if inc.preserve_metadata then v.metadata else none)
        else none), v.pfx⟩ = true
  · rw [if_pos hex] at h
    exact for_conflict_ok h
  · rw [if_neg hex] at h
    rw [← Except.ok.inj h]
    exact bool_false hex

theorem resolve_patch_conflict_ok {inc : VersionIncrementer} {v c : SemanticVersion}
    {ptype : List Char} (h : resolve_patch_conflict inc v ptype = .ok c) :
    version_exists inc c = false := by
  rw [resolve_patch_conflict] at h
  rcases hf : find_next_available_patch inc v with _ | np <;> rw [hf] at h
  · exact create_conflict_prerelease_ok h
  · rw [← Except.ok.inj h]
    exact find_next_available_patch_ok hf

theorem increment_patch_ok {inc : VersionIncrementer} {v c : SemanticVersion}
    {ptype : List Char} (h : increment_patch inc v ptype = .ok c) :
    version_exists inc c = false := by
  replace h : (if version_exists inc (create_patch_candidate inc v) = true then
      resolve_patch_conflict inc v ptype
      else .ok (create_patch_candidate inc v)) = .ok c := h
  by_cases hex : version_exists inc (create_patch_candidate inc v) = true
  · rw [if_pos hex] at h
    exact resolve_patch_conflict_ok h
  · rw [if_neg hex] at h
    rw [← Except.ok.inj h]
    exact bool_false hex

theorem increment_existing_prerelease_ok {inc : VersionIncrementer} {v c : SemanticVersion}
    (h : increment_existing_prerelease inc v = .ok c) : version_exists inc c = false := by
  rw [increment_existing_prerelease] at h
  by_cases hex : version_exists inc ⟨v.major, v.minor, v.patch,
      some (new_prerelease_string v),
      (if inc.preserve_metadata then v.metadata else none), v.pfx⟩ = true
  · rw [if_pos hex] at h
    rcases hf : find_available_prerelease_version inc v.major v.minor (v.patch + 1)
        ((splitDot (new_prerelease_string v)).headD []) 1 none v.metadata v.pfx with _ | av <;>
      rw [hf] at h
    · exact absurd h (by simp)
    · rw [← Except.ok.inj h]
      exact find_available_prerelease_version_ok hf
  · rw [if_neg hex] at h
    rw [← Except.ok.inj h]
    exact bool_false hex

theorem first_search_aux_ok {inc : VersionIncrementer} {v : SemanticVersion}
    {pid : List Char} : ∀ {p n c}, first_search_aux inc v pid p n = some c →
      version_exists inc c = false := by
  intro p n
  induction n generalizing p with
  | zero =>
    intro c h
    exact absurd h (by simp [first_search_aux])
  | succ n ih =>
    intro c h
    rw [first_search_aux] at h
    rcases hf : find_available_prerelease_version inc v.major v.minor p pid 1
        (some (Nat.min 1000 100)) v.metadata v.pfx with _ | av <;> rw [hf] at h
    · exact ih h
    · rw [← Option.some.inj h]
      exact find_available_prerelease_version_ok hf

theorem first_prerelease_search_ok {inc : VersionIncrementer} {v c : SemanticVersion}
    {pid : List Char} (h : first_prerelease_search inc v pid = some c) :
    version_exists inc c = false := by
  rw [first_prerelease_search] at h
  exact first_search_aux_ok h

/-- On a pre-release input with no effective label switch, the
pre-release advancement is the in-place increment. -/
theorem increment_prerelease_inplace {inc : VersionIncrementer} {v : SemanticVersion}
    {lbl : Option (List Char)} (hpre : is_prerelease v = true)
    (hsw : ∀ l, lbl = some l → l.isEmpty = false → switch_condition v l = false) :
    increment_prerelease inc v lbl = increment_existing_prerelease inc v := by
  rw [increment_prerelease.eq_def, hpre]
  simp only [Bool.not_true, Bool.false_eq_true, if_false]
  cases lbl with
  | none => rfl
  | some l =>
    show (if (!l.isEmpty && switch_condition v l) = true then
        Except.ok (⟨v.major, v.minor, v.patch, some (l ++ ".1".data),
          (if inc.preserve_metadata then v.metadata else none), v.pfx⟩ : SemanticVersion)
      else increment_existing_prerelease inc v) = increment_existing_prerelease inc v
    rw [if_neg]
    intro hcon
    rw [Bool.and_eq_true] at hcon
    obtain ⟨h1, h2⟩ := hcon
    have hl : l.isEmpty = false := by
      cases he : l.isEmpty
      · rfl
      · rw [he] at h1
        exact absurd h1 (by decide)
    rw [hsw l rfl hl] at h2
    exact absurd h2 (by decide)

/-! ### Claim C2 -/

/-- C2 (counterexample): with the default candidate 1.2.3-beta.1 already
in the existing-identifier set, the pre-release type-switch path returns
exactly that value, which is present in the set after normalization. -/
theorem C2_counterexample :
    increment ⟨["1.2.3-beta.1".data], false⟩
      ⟨1, 2, 3, some "alpha.1".data, none, []⟩ .PRERELEASE (some "beta".data) =
      .ok ⟨1, 2, 3, some "beta.1".data, none, []⟩ ∧
    version_exists ⟨["1.2.3-beta.1".data], false⟩
      ⟨1, 2, 3, some "beta.1".data, none, []⟩ = true := by decide

/-- C2 (amended): on every checked advancement path, increment never
returns a value present after normalization in the existing-identifier
set: this covers Major, Minor and Patch always, the in-place pre-release
increment (which raises on search exhaustion rather than returning a
colliding value), and the first-pre-release creation whenever its
bounded window search succeeds.  The two unchecked paths, the
pre-release type switch and the first-pre-release fallback after window
exhaustion, may return colliding values. -/
theorem C2_no_collision (inc : VersionIncrementer) (v : SemanticVersion)
    (ity : IncrementType) (lbl : Option (List Char)) (r : SemanticVersion)
    (hpath : (ity = .MAJOR ∨ ity = .MINOR ∨ ity = .PATCH) ∨
      ((ity = .PRERELEASE ∨ ity = .DEV) ∧ is_prerelease v = true ∧
        (∀ l, lbl = some l → l.isEmpty = false → switch_condition v l = false)) ∨
      ((ity = .PRERELEASE ∨ ity = .DEV) ∧ is_prerelease v = false ∧
        first_prerelease_search inc v (pyOrDev lbl) ≠ none))
    (h : increment inc v ity lbl = .ok r) :
    version_exists inc r = false := by
  rcases hpath with (rfl | rfl | rfl) | ⟨hity, hpre, hsw⟩ | ⟨hity, hpre, hsearch⟩
  · exact increment_major_ok h
  · exact increment_minor_ok h
  · exact increment_patch_ok h
  · have h2 : increment_prerelease inc v lbl = .ok r := by
      rcases hity with rfl | rfl
      · exact h
      · exact h
    rw [increment_prerelease_inplace hpre hsw] at h2
    exact increment_existing_prerelease_ok h2
  · have h2 : increment_prerelease inc v lbl = .ok r := by
      rcases hity with rfl | rfl
      · exact h
      · exact h
    rw [increment_prerelease.eq_def] at h2
    rw [hpre] at h2
    simp only [Bool.not_false, if_true] at h2
    rcases hs : first_prerelease_search inc v (pyOrDev lbl) with _ | c0
    · exact absurd hs hsearch
    · have hcf : create_first_prerelease inc v lbl = c0 := by
        rw [create_first_prerelease, hs]
      rw [hcf] at h2
      rw [← Except.ok.inj h2]
      exact first_prerelease_search_ok hs

/-- Witness for C2 on the Major path with a conflicting set. -/
theorem C2_no_collision_witness :
    version_exists ⟨["2.0.0".data], false⟩ ⟨2, 0, 1, none, none, []⟩ = false :=
  C2_no_collision ⟨["2.0.0".data], false⟩ ⟨1, 2, 3, none, none, []⟩ .MAJOR none
    ⟨2, 0, 1, none, none, []⟩ (Or.inl (Or.inl rfl)) (by decide)

/-! ### Claim C1 -/

/-- An empty tag collection makes every membership probe fail. -/
theorem version_exists_empty (pm : Bool) (x : SemanticVersion) :
    version_exists ⟨[], pm⟩ x = false := rfl

/-- A strictly larger core triple forces comparison result one. -/
theorem cp_one_of_core {a b : SemanticVersion} (h : coreLtB b a = true) :
    compare_precedence a b = 1 := by
  have hab : ¬ coreLtB a b = true := by simp [coreLtB_asymm h]
  rcases ha : a.prerelease with _ | p <;> rcases hb : b.prerelease with _ | q
  · rw [cp_none_none ha hb, if_neg hab, if_pos h]
  · rw [cp_none_some ha hb, if_neg hab, if_pos h]
  · rw [cp_some_none ha hb, if_neg hab, if_pos h]
  · rw [cp_some_some ha hb, if_neg hab, if_pos h]

/-- Appending one identifier to a chain moves the original chain
strictly earlier in the identifier order. -/
theorem cmpIdLists_append_one : ∀ (l : List (List Char)) (x : List Char),
    cmpIdLists l (l ++ [x]) = -1 := by
  intro l x
  induction l with
  | nil => rfl
  | cons a t ih =>
    show cmpIdLists (a :: t) (a :: (t ++ [x])) = -1
    simp only [cmpIdLists]
    rw [cmpIds_self]
    simpa using ih

/-- Replacing one identifier by a strictly later one moves the whole
chain strictly later in the identifier order. -/
theorem cmpIdLists_set_neg : ∀ (l : List (List Char)) (i : Nat) (h : i < l.length)
    (b : List Char), cmpIds (l.get ⟨i, h⟩) b = -1 → cmpIdLists l (l.set i b) = -1 := by
  intro l
  induction l with
  | nil => intro i h; exact absurd h (Nat.not_lt_zero i)
  | cons a t ih =>
    intro i h b hc
    cases i with
    | zero =>
      show cmpIdLists (a :: t) (b :: t) = -1
      simp only [cmpIdLists]
      rw [show (a :: t).get ⟨0, h⟩ = a from rfl] at hc
      rw [hc]
      norm_num
    | succ j =>
      show cmpIdLists (a :: t) (a :: t.set j b) = -1
      simp only [cmpIdLists]
      rw [cmpIds_self]
      have hj : j < t.length := Nat.lt_of_succ_lt_succ h
      have hr := ih j hj b hc
      simpa using hr

/-- The data recorded for the last numeric component: the index is a
valid position of the identifier chain, the stored identifier is the one
at that position, and the stored value reads its numeral. -/
theorem comps_getLast_facts {v : SemanticVersion} {idx : Nat} {origId : List Char}
    {nval : Nat} (h : (find_numeric_prerelease_components v).getLast? =
      some (idx, origId, nval)) :
    ∃ hlt : idx < (get_prerelease_identifiers v).length,
      (get_prerelease_identifiers v).get ⟨idx, hlt⟩ = origId ∧
      ((isdigitL origId = true ∧ nval = toNatDigits origId) ∨
        (isdigitL origId = false ∧ trailingDigits origId ≠ [] ∧
          nval = toNatDigits (trailingDigits origId))) := by
  have hmem := List.mem_of_getLast?_eq_some h
  rw [find_numeric_prerelease_components] at hmem
  obtain ⟨q, henum, hf⟩ := List.mem_filterMap.mp hmem
  obtain ⟨i, id⟩ := q
  have hq : (get_prerelease_identifiers v)[i]? = some id :=
    List.mk_mem_enum_iff_getElem?.mp henum
  obtain ⟨hlt, hgetEl⟩ := List.getElem?_eq_some_iff.mp hq
  replace hf : (if isdigitL id then some (i, id, toNatDigits id)
      else if (trailingDigits id).isEmpty then none
      else some (i, id, toNatDigits (trailingDigits id))) = some (idx, origId, nval) := hf
  by_cases hd : isdigitL id = true
  · rw [if_pos hd] at hf
    have he := Option.some.inj hf
    injection he with hi hrest
    injection hrest with hid hn
    subst hi; subst hid; subst hn
    exact ⟨hlt, hgetEl, Or.inl ⟨hd, rfl⟩⟩
  · rw [if_neg hd] at hf
    by_cases hte : (trailingDigits id).isEmpty = true
    · rw [if_pos hte] at hf
      exact absurd hf (by simp)
    · rw [if_neg hte] at hf
      have he := Option.some.inj hf
      injection he with hi hrest
      injection hrest with hid hn
      subst hi; subst hid; subst hn
      refine ⟨hlt, hgetEl, Or.inr ⟨bool_false hd, ?_, rfl⟩⟩
      intro hnil
      rw [hnil] at hte
      exact hte rfl

/-- Decimal digits are never the dot separator. -/
theorem isDigit_ne_dot {c : Char} (h : c.isDigit = true) : c ≠ '.' := by
  intro he
  subst he
  exact absurd h (by decide)

/-- The canonical rendering of a number is a purely numeric identifier. -/
theorem isdigitL_natStr (n : Nat) : isdigitL (natStr n) = true := by
  rw [isdigitL, Bool.and_eq_true]
  constructor
  · rw [show (natStr n).isEmpty = false from List.isEmpty_eq_false.mpr (natStr_ne_nil n)]
    rfl
  · rw [List.all_eq_true]
    exact natStr_digits n

/-- The canonical rendering of a number never holds a dot. -/
theorem no_dot_natStr (m : Nat) : '.' ∉ natStr m :=
  fun h => absurd (natStr_digits m '.' h) (by decide)

/-- Splitting an identifier at its trailing numeral and putting the two
parts back together recovers the identifier. -/
theorem dropTrailing_append_trailing (s : List Char) :
    dropTrailingDigits s ++ trailingDigits s = s := by
  rw [dropTrailingDigits, trailingDigits, ← List.reverse_append,
    List.takeWhile_append_dropWhile, List.reverse_reverse]

/-- Every character of the trailing numeral is a digit. -/
theorem trailingDigits_digits {s : List Char} : ∀ c ∈ trailingDigits s, c.isDigit = true := by
  intro c hc
  rw [trailingDigits, List.mem_reverse] at hc
  exact List.mem_takeWhile_imp hc

/-- The stem left after removing the trailing numeral is part of the
original identifier. -/
theorem mem_dropTrailing {s : List Char} {c : Char} (h : c ∈ dropTrailingDigits s) :
    c ∈ s := by
  rw [dropTrailingDigits, List.mem_reverse] at h
  exact List.mem_reverse.mp ((List.dropWhile_suffix _).sublist.subset h)

/-- Rewriting the trailing numeral of an alphanumeric identifier keeps
it alphanumeric: the stem still holds a non-digit character. -/
theorem isdigitL_alnum_new {origId : List Char} (hd : isdigitL origId = false)
    (ht : trailingDigits origId ≠ []) (m : Nat) :
    isdigitL (dropTrailingDigits origId ++ natStr m) = false := by
  have hone : origId ≠ [] := by
    intro he
    apply ht
    rw [he]
    rfl
  have hall : origId.all Char.isDigit = false := by
    cases hall : origId.all Char.isDigit
    · rfl
    · exfalso
      rw [isdigitL, hall, Bool.and_true] at hd
      have hie : origId.isEmpty = true := by
        cases he : origId.isEmpty
        · rw [he] at hd
          exact absurd hd (by decide)
        · rfl
      exact hone (List.isEmpty_iff.mp hie)
  obtain ⟨c, hcmem, hcnd⟩ := List.all_eq_false.mp hall
  have hcs : c ∈ dropTrailingDigits origId := by
    rw [← dropTrailing_append_trailing origId] at hcmem
    rcases List.mem_append.mp hcmem with hcase | hcase
    · exact hcase
    · exact absurd (trailingDigits_digits c hcase) hcnd
  have hnew : ((dropTrailingDigits origId ++ natStr m).all Char.isDigit) = false := by
    rw [List.all_eq_false]
    exact ⟨c, List.mem_append_left _ hcs, hcnd⟩
  rw [isdigitL, hnew, Bool.and_false]

/-- Rewriting the trailing numeral of a dot-free identifier keeps it
dot-free. -/
theorem no_dot_alnum_new {origId : List Char} (hnd : '.' ∉ origId) (m : Nat) :
    '.' ∉ dropTrailingDigits origId ++ natStr m := by
  intro hmem
  rcases List.mem_append.mp hmem with hcase | hcase
  · exact hnd (mem_dropTrailing hcase)
  · exact no_dot_natStr m hcase

/-- The rollover corner of the in-place pre-release increment: the last
numeric component is alphanumeric and its trailing numeral consists of
nines only, so the rewritten numeral grows one digit longer and sorts
lexically below the original. -/
def lastNinesCase (v : SemanticVersion) : Bool :=
  match (find_numeric_prerelease_components v).getLast? with
  | some (_, origId, _) =>
    !isdigitL origId && (trailingDigits origId).all (fun c => decide (c = '9'))
  | none => false

/-- Outside the all-nines corner, incrementing the trailing numeral of
an alphanumeric identifier moves it strictly later in the lexical
order. -/
theorem pyStrLt_alnum_new {origId : List Char} (ht : trailingDigits origId ≠ [])
    (h9 : (trailingDigits origId).all (fun c => decide (c = '9')) = false) :
    pyStrLt origId
      (dropTrailingDigits origId ++ natStr (toNatDigits (trailingDigits origId) + 1)) =
      true := by
  nth_rewrite 1 [← dropTrailing_append_trailing origId]
  rw [pyStrLt_append_left]
  apply digits_lt_succ _ ht trailingDigits_digits
  intro hall
  have h9t : (trailingDigits origId).all (fun c => decide (c = '9')) = true := by
    rw [List.all_eq_true]
    intro c hc
    exact decide_eq_true (hall c hc)
  rw [h9t] at h9
  exact Bool.noConfusion h9

/-- Outside the nines rollover corner, the rewritten pre-release chain
sorts strictly later than the original chain. -/
theorem cmp_inplace {v : SemanticVersion} {p : List Char}
    (hp : v.prerelease = some p) (hn : lastNinesCase v = false) :
    cmpIdLists (splitDot p) (splitDot (new_prerelease_string v)) = -1 := by
  rw [new_prerelease_string]
  rcases hlast : (find_numeric_prerelease_components v).getLast? with _ | ⟨idx, origId, nval⟩
  · show cmpIdLists (splitDot p) (splitDot ((v.prerelease.getD []) ++ ".1".data)) = -1
    rw [hp]
    show cmpIdLists (splitDot p) (splitDot (p ++ '.' :: ['1'])) = -1
    rw [splitDot_append]
    show cmpIdLists (splitDot p) (splitDot p ++ [['1']]) = -1
    exact cmpIdLists_append_one _ _
  · obtain ⟨hlt, hget, hcases⟩ := comps_getLast_facts hlast
    have h0 : get_prerelease_identifiers v = if p.isEmpty then [] else splitDot p := by
      rw [get_prerelease_identifiers.eq_def, hp]
    have hq : (get_prerelease_identifiers v)[idx]? = some origId :=
      List.getElem?_eq_some_iff.mpr ⟨hlt, hget⟩
    have hpne : p.isEmpty = false := by
      cases hpe : p.isEmpty
      · rfl
      · exfalso
        rw [h0, if_pos hpe] at hq
        simp at hq
    have hids : get_prerelease_identifiers v = splitDot p := by
      rw [h0, if_neg (by simp [hpne])]
    rw [hids] at hq
    obtain ⟨hlt2, hget2⟩ := List.getElem?_eq_some_iff.mp hq
    have hget : (splitDot p).get ⟨idx, hlt2⟩ = origId := hget2
    have hlt := hlt2
    rw [hids]
    show cmpIdLists (splitDot p) (splitDot (joinDot ((splitDot p).set idx
      (if isdigitL origId then natStr (nval + 1)
        else dropTrailingDigits origId ++ natStr (nval + 1))))) = -1
    have horig : origId ∈ splitDot p := by
      rw [← hget]
      exact List.get_mem _ _ _
    have hnodot : ∀ part ∈ (splitDot p).set idx
        (if isdigitL origId then natStr (nval + 1)
          else dropTrailingDigits origId ++ natStr (nval + 1)), '.' ∉ part := by
      intro part hpart
      rcases List.mem_or_eq_of_mem_set hpart with hcase | hcase
      · exact splitDot_no_dot p part hcase
      · subst hcase
        by_cases hd : isdigitL origId = true
        · rw [if_pos hd]
          exact no_dot_natStr _
        · rw [if_neg hd]
          exact no_dot_alnum_new (splitDot_no_dot p origId horig) _
    have hsetne : (splitDot p).set idx
        (if isdigitL origId then natStr (nval + 1)
          else dropTrailingDigits origId ++ natStr (nval + 1)) ≠ [] := by
      apply List.ne_nil_of_length_pos
      rw [List.length_set]
      exact Nat.lt_of_le_of_lt (Nat.zero_le idx) hlt
    rw [splitDot_joinDot _ hsetne hnodot]
    apply cmpIdLists_set_neg (splitDot p) idx hlt
    rw [hget]
    rcases hcases with ⟨hd, hval⟩ | ⟨hd, htne, hval⟩
    · rw [if_pos hd, cmpIds_num hd (isdigitL_natStr _), toNatDigits_natStr,
        if_pos (show toNatDigits origId < nval + 1 by omega)]
    · have h9 : (trailingDigits origId).all (fun c => decide (c = '9')) = false := by
        have hn2 : (match (find_numeric_prerelease_components v).getLast? with
          | some (_, origId, _) =>
            !isdigitL origId && (trailingDigits origId).all (fun c => decide (c = '9'))
          | none => false) = false := hn
        rw [hlast] at hn2
        replace hn2 : (!isdigitL origId &&
          (trailingDigits origId).all (fun c => decide (c = '9'))) = false := hn2
        rw [hd] at hn2
        simpa using hn2
      rw [if_neg (by simp [hd]), cmpIds_alpha hd (isdigitL_alnum_new hd htne _), hval,
        if_pos (pyStrLt_alnum_new htne h9)]

/-- Outside the nines corner, the in-place result compares strictly
greater than its input. -/
theorem inplace_gt {v : SemanticVersion} {p : List Char} (hp : v.prerelease = some p)
    (hn : lastNinesCase v = false) :
    compare_precedence
      ⟨v.major, v.minor, v.patch, some (new_prerelease_string v), none, v.pfx⟩ v = 1 := by
  rw [cp_some_some rfl hp]
  have e1 : coreLtB ⟨v.major, v.minor, v.patch, some (new_prerelease_string v), none, v.pfx⟩
      v = false := by
    have he : coreLtB ⟨v.major, v.minor, v.patch, some (new_prerelease_string v), none,
        v.pfx⟩ v = coreLtB v v := rfl
    rw [he, coreLtB_irrefl]
  have e2 : coreLtB v ⟨v.major, v.minor, v.patch, some (new_prerelease_string v), none,
      v.pfx⟩ = false := by
    have he : coreLtB v ⟨v.major, v.minor, v.patch, some (new_prerelease_string v), none,
        v.pfx⟩ = coreLtB v v := rfl
    rw [he, coreLtB_irrefl]
  rw [if_neg (by simp [e1]), if_neg (by simp [e2])]
  have h1 := cmp_inplace hp hn
  have h2 := cmpIdLists_antisym (splitDot p) (splitDot (new_prerelease_string v))
  omega

/-- Evaluation of the Major advancement against an empty tag set. -/
theorem increment_major_empty (v : SemanticVersion) :
    increment ⟨[], false⟩ v .MAJOR none = .ok ⟨v.major + 1, 0, 0, none, none, v.pfx⟩ := rfl

/-- Evaluation of the Minor advancement against an empty tag set. -/
theorem increment_minor_empty (v : SemanticVersion) :
    increment ⟨[], false⟩ v .MINOR none = .ok ⟨v.major, v.minor + 1, 0, none, none, v.pfx⟩ := rfl

/-- Evaluation of the Patch advancement against an empty tag set. -/
theorem increment_patch_empty (v : SemanticVersion) :
    increment ⟨[], false⟩ v .PATCH none =
      .ok ⟨v.major, v.minor, v.patch + 1, none, none, v.pfx⟩ := rfl

/-- Evaluation of first-pre-release creation against an empty tag set:
the first probe, dev.1 at the next patch, is free and returned. -/
theorem increment_first_empty {v : SemanticVersion} (hp : v.prerelease = none) :
    increment_prerelease ⟨[], false⟩ v none =
      .ok ⟨v.major, v.minor, v.patch + 1, some "dev.1".data, v.metadata, v.pfx⟩ := by
  have hpre : is_prerelease v = false := by rw [is_prerelease, hp]; rfl
  rw [increment_prerelease.eq_def, hpre]
  rfl

/-- Evaluation of the in-place pre-release advancement against an empty
tag set: the rewritten chain is free and returned. -/
theorem increment_inplace_empty {v : SemanticVersion} {p : List Char}
    (hp : v.prerelease = some p) :
    increment_prerelease ⟨[], false⟩ v none =
      .ok ⟨v.major, v.minor, v.patch, some (new_prerelease_string v), none, v.pfx⟩ := by
  have hpre : is_prerelease v = true := by rw [is_prerelease, hp]; rfl
  rw [increment_prerelease_inplace hpre (fun l hl => Option.noConfusion hl)]
  rfl

/-- C1 (counterexample): advancing the parsed pre-release 1.2.3-dev9
with the Prerelease kind against an empty tag set returns 1.2.3-dev10,
which compares strictly BELOW the input: the trailing numeral rolls from
one digit to two and dev10 sorts lexically before dev9. -/
theorem C1_counterexample :
    parse "1.2.3-dev9".data = some ⟨1, 2, 3, some "dev9".data, none, []⟩ ∧
    increment ⟨[], false⟩ ⟨1, 2, 3, some "dev9".data, none, []⟩ .PRERELEASE none =
      .ok ⟨1, 2, 3, some "dev10".data, none, []⟩ ∧
    compare_precedence ⟨1, 2, 3, some "dev10".data, none, []⟩
      ⟨1, 2, 3, some "dev9".data, none, []⟩ = -1 := by decide

/-- C1 (amended): for every version accepted by the parser and every
advancement kind, with an empty existing-identifier set, increment
succeeds and its result is strictly greater than the input under
compare_precedence, provided the input is outside the nines-rollover
corner of the pre-release kinds (last numeric component alphanumeric
with a trailing numeral made of nines only); the Major, Minor and Patch
kinds are monotonic unconditionally. -/
theorem C1_monotone (s : List Char) (v : SemanticVersion) (ity : IncrementType)
    (hparse : parse s = some v)
    (hok : lastNinesCase v = false ∨ ity = .MAJOR ∨ ity = .MINOR ∨ ity = .PATCH) :
    ∃ r, increment ⟨[], false⟩ v ity none = .ok r ∧ compare_precedence r v = 1 := by
  cases ity with
  | MAJOR =>
    exact ⟨⟨v.major + 1, 0, 0, none, none, v.pfx⟩, increment_major_empty v,
      cp_one_of_core (coreLtB_iff.mpr (Or.inl (Nat.lt_succ_self _)))⟩
  | MINOR =>
    exact ⟨⟨v.major, v.minor + 1, 0, none, none, v.pfx⟩, increment_minor_empty v,
      cp_one_of_core (coreLtB_iff.mpr (Or.inr ⟨rfl, Or.inl (Nat.lt_succ_self _)⟩))⟩
  | PATCH =>
    exact ⟨⟨v.major, v.minor, v.patch + 1, none, none, v.pfx⟩, increment_patch_empty v,
      cp_one_of_core (coreLtB_iff.mpr (Or.inr ⟨rfl, Or.inr ⟨rfl, Nat.lt_succ_self _⟩⟩))⟩
  | PRERELEASE =>
    rcases hp : v.prerelease with _ | p
    · exact ⟨⟨v.major, v.minor, v.patch + 1, some "dev.1".data, v.metadata, v.pfx⟩,
        increment_first_empty hp,
        cp_one_of_core (coreLtB_iff.mpr (Or.inr ⟨rfl, Or.inr ⟨rfl, Nat.lt_succ_self _⟩⟩))⟩
    · have hn : lastNinesCase v = false := by
        rcases hok with h | h | h | h
        · exact h
        · exact absurd h (by decide)
        · exact absurd h (by decide)
        · exact absurd h (by decide)
      exact ⟨⟨v.major, v.minor, v.patch, some (new_prerelease_string v), none, v.pfx⟩,
        increment_inplace_empty hp, inplace_gt hp hn⟩
  | DEV =>
    rcases hp : v.prerelease with _ | p
    · exact ⟨⟨v.major, v.minor, v.patch + 1, some "dev.1".data, v.metadata, v.pfx⟩,
        increment_first_empty hp,
        cp_one_of_core (coreLtB_iff.mpr (Or.inr ⟨rfl, Or.inr ⟨rfl, Nat.lt_succ_self _⟩⟩))⟩
    · have hn : lastNinesCase v = false := by
        rcases hok with h | h | h | h
        · exact h
        · exact absurd h (by decide)
        · exact absurd h (by decide)
        · exact absurd h (by decide)
      exact ⟨⟨v.major, v.minor, v.patch, some (new_prerelease_string v), none, v.pfx⟩,
        increment_inplace_empty hp, inplace_gt hp hn⟩

/-- Witness for the amended C1 at the parsed pre-release 1.2.3-alpha.1,
whose last numeric component is the numeral steered clear of the nines
corner. -/
theorem C1_monotone_witness :
    ∃ r, increment ⟨[], false⟩ ⟨1, 2, 3, some "alpha.1".data, none, []⟩ .PRERELEASE none =
      .ok r ∧ compare_precedence r ⟨1, 2, 3, some "alpha.1".data, none, []⟩ = 1 :=
  C1_monotone "1.2.3-alpha.1".data ⟨1, 2, 3, some "alpha.1".data, none, []⟩ .PRERELEASE
    (by decide) (Or.inl (by decide))

/-! ### Claim C7 -/

/-- The patch scan loop is the first element of the ascending candidate
window that is neither recorded as taken nor present in the normalized
set. -/
theorem find_patch_aux_eq (inc : VersionIncrementer) (v : SemanticVersion)
    (existing : List Nat) : ∀ (n s : Nat),
    find_patch_aux inc v existing s n =
      (((List.range n).map (fun i => s + i)).find? (fun q =>
        !decide (q ∈ existing) &&
        !version_exists inc ⟨v.major, v.minor, q, none,
          (if inc.preserve_metadata then v.metadata else none), v.pfx⟩)).map
        (fun q => (⟨v.major, v.minor, q, none,
          (if inc.preserve_metadata then v.metadata else none), v.pfx⟩ : SemanticVersion)) := by
  intro n
  induction n with
  | zero => intro s; rfl
  | succ n ih =>
    intro s
    have hcomp : ((List.range n).map Nat.succ).map (fun i => s + i) =
        (List.range n).map (fun i => (s + 1) + i) := by
      rw [List.map_map]
      apply List.map_congr_left
      intro i _
      show s + (i + 1) = (s + 1) + i
      omega
    rw [List.range_succ_eq_map, List.map_cons, hcomp]
    show (if s ∈ existing then find_patch_aux inc v existing (s + 1) n
      else if version_exists inc ⟨v.major, v.minor, s, none,
          (if inc.preserve_metadata then v.metadata else none), v.pfx⟩ = true then
        find_patch_aux inc v existing (s + 1) n
      else some ⟨v.major, v.minor, s, none,
        (if inc.preserve_metadata then v.metadata else none), v.pfx⟩) = _
    by_cases hmem : s ∈ existing
    · have hp : (!decide (s + 0 ∈ existing) && !version_exists inc ⟨v.major, v.minor, s + 0,
          none, (if inc.preserve_metadata then v.metadata else none), v.pfx⟩) = false := by
        rw [Nat.add_zero, decide_eq_true hmem]
        rfl
      have hpn : ¬ (!decide (s + 0 ∈ existing) && !version_exists inc ⟨v.major, v.minor,
          s + 0, none, (if inc.preserve_metadata then v.metadata else none), v.pfx⟩) =
          true := by
        rw [hp]
        exact Bool.false_ne_true
      rw [if_pos hmem, List.find?_cons_of_neg]
      · exact ih (s + 1)
      · exact hpn
    · by_cases hve : version_exists inc ⟨v.major, v.minor, s, none,
          (if inc.preserve_metadata then v.metadata else none), v.pfx⟩ = true
      · have hp : (!decide (s + 0 ∈ existing) && !version_exists inc ⟨v.major, v.minor,
            s + 0, none, (if inc.preserve_metadata then v.metadata else none), v.pfx⟩) =
            false := by
          rw [Nat.add_zero, hve]
          exact Bool.and_false _
        have hpn : ¬ (!decide (s + 0 ∈ existing) && !version_exists inc ⟨v.major, v.minor,
            s + 0, none, (if inc.preserve_metadata then v.metadata else none), v.pfx⟩) =
            true := by
          rw [hp]
          exact Bool.false_ne_true
        rw [if_neg hmem, if_pos hve, List.find?_cons_of_neg]
        · exact ih (s + 1)
        · exact hpn
      · have hp : (!decide (s + 0 ∈ existing) && !version_exists inc ⟨v.major, v.minor,
            s + 0, none, (if inc.preserve_metadata then v.metadata else none), v.pfx⟩) =
            true := by
          rw [Nat.add_zero, decide_eq_false hmem, bool_false hve]
          rfl
        rw [if_neg hmem, if_neg hve, List.find?_cons_of_pos]
        · rfl
        · exact hp

/-- C7 (counterexample): with existing tags 1.2.4 and 1.2.5-alpha, the
Patch advancement of 1.2.3 returns 1.2.6 although the plain patch
release 1.2.5 is unused: the taken-number table also records patch
numbers contributed by pre-release tags, so 5 is skipped. -/
theorem C7_counterexample :
    increment ⟨["1.2.4".data, "1.2.5-alpha".data], false⟩ ⟨1, 2, 3, none, none, []⟩
      .PATCH none = .ok ⟨1, 2, 6, none, none, []⟩ ∧
    version_exists ⟨["1.2.4".data, "1.2.5-alpha".data], false⟩
      ⟨1, 2, 5, none, none, []⟩ = false := by decide

/-- C7 (amended): the Patch advancement returns the candidate patch+1
with pre-release cleared when unused; otherwise it returns the first
patch in the window patch+1 .. patch+100 whose number is neither in the
taken-number table extracted from the normalized set at that
major.minor (a table that also records numbers contributed by
pre-release and metadata tags, so such patches are skipped even when
the plain release is unused) nor in use itself; if the window is
exhausted it constructs a first pre-release label.1 at patch+1 (label
defaulting to dev) and only when that also collides does it delegate to
the pre-release conflict search. -/
theorem C7_patch (inc : VersionIncrementer) (v : SemanticVersion) (lbl : Option (List Char)) :
    increment inc v .PATCH lbl =
      (if version_exists inc ⟨v.major, v.minor, v.patch + 1, none,
          (if inc.preserve_metadata then v.metadata else none), v.pfx⟩ = false then
        .ok ⟨v.major, v.minor, v.patch + 1, none,
          (if inc.preserve_metadata then v.metadata else none), v.pfx⟩
      else
        match ((List.range 100).map (fun i => v.patch + 1 + i)).find? (fun q =>
            !decide (q ∈ get_existing_patches inc v.major v.minor) &&
            !version_exists inc ⟨v.major, v.minor, q, none,
              (if inc.preserve_metadata then v.metadata else none), v.pfx⟩) with
        | some q => .ok ⟨v.major, v.minor, q, none,
            (if inc.preserve_metadata then v.metadata else none), v.pfx⟩
        | none =>
          if version_exists inc ⟨v.major, v.minor, v.patch + 1,
              some (pyOrDev lbl ++ ".1".data),
              (if inc.preserve_metadata then v.metadata else none), v.pfx⟩ = false then
            .ok ⟨v.major, v.minor, v.patch + 1, some (pyOrDev lbl ++ ".1".data),
              (if inc.preserve_metadata then v.metadata else none), v.pfx⟩
          else find_next_available_prerelease_for_conflict inc
            ⟨v.major, v.minor, v.patch + 1, none,
              (if inc.preserve_metadata then v.metadata else none), v.pfx⟩ (pyOrDev lbl)) := by
  show increment_patch inc v (pyOrDev lbl) = _
  have hstep : increment_patch inc v (pyOrDev lbl) =
      (if version_exists inc ⟨v.major, v.minor, v.patch + 1, none,
          (if inc.preserve_metadata then v.metadata else none), v.pfx⟩ = true then
        resolve_patch_conflict inc v (pyOrDev lbl)
      else .ok ⟨v.major, v.minor, v.patch + 1, none,
        (if inc.preserve_metadata then v.metadata else none), v.pfx⟩) := rfl
  rw [hstep]
  by_cases hex : version_exists inc ⟨v.major, v.minor, v.patch + 1, none,
      (if inc.preserve_metadata then v.metadata else none), v.pfx⟩ = true
  · rw [if_pos hex, if_neg (by simp [hex])]
    rw [resolve_patch_conflict, find_next_available_patch, find_patch_aux_eq]
    rcases hfind : ((List.range 100).map (fun i => v.patch + 1 + i)).find? (fun q =>
        !decide (q ∈ get_existing_patches inc v.major v.minor) &&
        !version_exists inc ⟨v.major, v.minor, q, none,
          (if inc.preserve_metadata then v.metadata else none), v.pfx⟩) with _ | q
    · show create_conflict_prerelease inc v (pyOrDev lbl) =
        (if version_exists inc ⟨v.major, v.minor, v.patch + 1,
            some (pyOrDev lbl ++ ".1".data),
            (if inc.preserve_metadata then v.metadata else none), v.pfx⟩ = false then
          Except.ok (⟨v.major, v.minor, v.patch + 1, some (pyOrDev lbl ++ ".1".data),
            (if inc.preserve_metadata then v.metadata else none), v.pfx⟩ : SemanticVersion)
        else find_next_available_prerelease_for_conflict inc
          ⟨v.major, v.minor, v.patch + 1, none,
            (if inc.preserve_metadata then v.metadata else none), v.pfx⟩ (pyOrDev lbl))
      have hcc : create_conflict_prerelease inc v (pyOrDev lbl) =
          (if version_exists inc ⟨v.major, v.minor, v.patch + 1,
              some (pyOrDev lbl ++ ".1".data),
              (if inc.preserve_metadata then (if inc.preserve_metadata then v.metadata
                else none) else none), v.pfx⟩ = true then
            find_next_available_prerelease_for_conflict inc ⟨v.major, v.minor, v.patch + 1,
              none, (if inc.preserve_metadata then v.metadata else none), v.pfx⟩
              (pyOrDev lbl)
          else .ok ⟨v.major, v.minor, v.patch + 1, some (pyOrDev lbl ++ ".1".data),
            (if inc.preserve_metadata then (if inc.preserve_metadata then v.metadata
              else none) else none), v.pfx⟩) := rfl
      rw [hcc]
      have hmeta : (if inc.preserve_metadata then (if inc.preserve_metadata then v.metadata
          else none) else none) = (if inc.preserve_metadata then v.metadata else none) := by
        rcases hpm : inc.preserve_metadata with _ | _ <;> rfl
      rw [hmeta]
      by_cases hex2 : version_exists inc ⟨v.major, v.minor, v.patch + 1,
          some (pyOrDev lbl ++ ".1".data),
          (if inc.preserve_metadata then v.metadata else none), v.pfx⟩ = true
      · have hne2 : ¬ version_exists inc ⟨v.major, v.minor, v.patch + 1,
            some (pyOrDev lbl ++ ".1".data),
            (if inc.preserve_metadata then v.metadata else none), v.pfx⟩ = false := by
          simp [hex2]
        rw [if_pos hex2, if_neg hne2]
      · rw [if_neg hex2, if_pos (bool_false hex2)]
    · show Except.ok (⟨v.major, v.minor, q, none,
        (if inc.preserve_metadata then v.metadata else none), v.pfx⟩ : SemanticVersion) = _
      rfl
  · rw [if_neg hex, if_pos (bool_false hex)]

/-! ### Claim C3 -/

/-- The counter loop of the shared pre-release search is the first
unused candidate of the ascending counter list. -/
theorem find_avail_aux_eq (inc : VersionIncrementer) (maj mnr pat : Nat)
    (ptype : List Char) (meta : Option (List Char)) (pfx : List Char) : ∀ (n s : Nat),
    find_avail_aux inc maj mnr pat ptype meta pfx s n =
      ((List.range n).map (fun c => (⟨maj, mnr, pat, some (ptype ++ '.' :: natStr (s + c)),
        meta, pfx⟩ : SemanticVersion))).find? (fun c => !version_exists inc c) := by
  intro n
  induction n with
  | zero => intro s; rfl
  | succ n ih =>
    intro s
    have hcomp : ((List.range n).map Nat.succ).map (fun c => (⟨maj, mnr, pat,
        some (ptype ++ '.' :: natStr (s + c)), meta, pfx⟩ : SemanticVersion)) =
        (List.range n).map (fun c => (⟨maj, mnr, pat,
          some (ptype ++ '.' :: natStr ((s + 1) + c)), meta, pfx⟩ : SemanticVersion)) := by
      rw [List.map_map]
      apply List.map_congr_left
      intro c _
      show (⟨maj, mnr, pat, some (ptype ++ '.' :: natStr (s + (c + 1))), meta, pfx⟩ :
          SemanticVersion) = _
      rw [show s + (c + 1) = (s + 1) + c by omega]
    rw [List.range_succ_eq_map, List.map_cons, hcomp]
    show (if version_exists inc ⟨maj, mnr, pat, some (ptype ++ '.' :: natStr s), meta,
        pfx⟩ = true then find_avail_aux inc maj mnr pat ptype meta pfx (s + 1) n
      else some ⟨maj, mnr, pat, some (ptype ++ '.' :: natStr s), meta, pfx⟩) = _
    by_cases hve : version_exists inc ⟨maj, mnr, pat, some (ptype ++ '.' :: natStr s),
        meta, pfx⟩ = true
    · have hpn : ¬ (!version_exists inc ⟨maj, mnr, pat,
          some (ptype ++ '.' :: natStr (s + 0)), meta, pfx⟩) = true := by
        show ¬ (!version_exists inc ⟨maj, mnr, pat, some (ptype ++ '.' :: natStr s),
          meta, pfx⟩) = true
        rw [hve]
        decide
      rw [if_pos hve, List.find?_cons_of_neg]
      · exact ih (s + 1)
      · exact hpn
    · rw [if_neg hve, List.find?_cons_of_pos]
      · rfl
      · show (!version_exists inc ⟨maj, mnr, pat, some (ptype ++ '.' :: natStr s), meta,
          pfx⟩) = true
        rw [bool_false hve]
        rfl

/-- Pointwise equal probe builders give the same flattened probe list. -/
theorem flatMap_congr_fun {α β : Type} : ∀ (l : List α) (f g : α → List β),
    (∀ a ∈ l, f a = g a) → l.flatMap f = l.flatMap g := by
  intro l
  induction l with
  | nil => intro f g _; rfl
  | cons x t ih =>
    intro f g h
    rw [List.flatMap_cons, List.flatMap_cons, h x (List.mem_cons_self _ _),
      ih f g (fun a ha => h a (List.mem_cons_of_mem _ ha))]

/-- Splitting the first patch off the flattened probe window. -/
theorem probe_window_succ (inc : VersionIncrementer) (v : SemanticVersion)
    (pid : List Char) (n p : Nat) :
    ((List.range (n + 1)).flatMap (fun i => (List.range 100).map (fun c =>
      (⟨v.major, v.minor, p + i, some (pid ++ '.' :: natStr (1 + c)), v.metadata, v.pfx⟩
        : SemanticVersion)))).find? (fun c => !version_exists inc c) =
    (((List.range 100).map (fun c => (⟨v.major, v.minor, p,
        some (pid ++ '.' :: natStr (1 + c)), v.metadata, v.pfx⟩ : SemanticVersion))).find?
      (fun c => !version_exists inc c)).or
    (((List.range n).flatMap (fun i => (List.range 100).map (fun c =>
      (⟨v.major, v.minor, (p + 1) + i, some (pid ++ '.' :: natStr (1 + c)), v.metadata,
        v.pfx⟩ : SemanticVersion)))).find? (fun c => !version_exists inc c)) := by
  have h2 : ((List.range n).map Nat.succ).flatMap (fun i => (List.range 100).map (fun c =>
      (⟨v.major, v.minor, p + i, some (pid ++ '.' :: natStr (1 + c)), v.metadata, v.pfx⟩
        : SemanticVersion))) =
      (List.range n).flatMap (fun i => (List.range 100).map (fun c =>
      (⟨v.major, v.minor, (p + 1) + i, some (pid ++ '.' :: natStr (1 + c)), v.metadata,
        v.pfx⟩ : SemanticVersion))) := by
    rw [List.flatMap_map]
    apply flatMap_congr_fun
    intro a _
    show (List.range 100).map (fun c => (⟨v.major, v.minor, p + (a + 1),
      some (pid ++ '.' :: natStr (1 + c)), v.metadata, v.pfx⟩ : SemanticVersion)) = _
    rw [show p + (a + 1) = (p + 1) + a by omega]
  rw [List.range_succ_eq_map, List.flatMap_cons, List.find?_append, h2]
  rfl

/-- The five-patch window search is the first unused candidate of the
flattened probe list: patches in ascending order, and for each patch the
counters one through one hundred. -/
theorem first_search_aux_eq (inc : VersionIncrementer) (v : SemanticVersion)
    (pid : List Char) : ∀ (n p : Nat),
    first_search_aux inc v pid p n =
      ((List.range n).flatMap (fun i => (List.range 100).map (fun c =>
        (⟨v.major, v.minor, p + i, some (pid ++ '.' :: natStr (1 + c)), v.metadata, v.pfx⟩
          : SemanticVersion)))).find? (fun c => !version_exists inc c) := by
  intro n
  induction n with
  | zero => intro p; rfl
  | succ n ih =>
    intro p
    rw [probe_window_succ]
    show (match find_available_prerelease_version inc v.major v.minor p pid 1
        (some (Nat.min 1000 100)) v.metadata v.pfx with
      | some av => some av
      | none => first_search_aux inc v pid (p + 1) n) = _
    have hfa : find_available_prerelease_version inc v.major v.minor p pid 1
        (some (Nat.min 1000 100)) v.metadata v.pfx =
        ((List.range 100).map (fun c => (⟨v.major, v.minor, p,
          some (pid ++ '.' :: natStr (1 + c)), v.metadata, v.pfx⟩ : SemanticVersion))).find?
          (fun c => !version_exists inc c) := by
      show find_avail_aux inc v.major v.minor p pid v.metadata v.pfx 1 100 = _
      exact find_avail_aux_eq inc v.major v.minor p pid v.metadata v.pfx 100 1
    rcases hblock : ((List.range 100).map (fun c => (⟨v.major, v.minor, p,
        some (pid ++ '.' :: natStr (1 + c)), v.metadata, v.pfx⟩ : SemanticVersion))).find?
        (fun c => !version_exists inc c) with _ | av
    · rw [hfa, hblock, Option.none_or]
      show first_search_aux inc v pid (p + 1) n = _
      exact ih (p + 1)
    · rw [hfa, hblock, Option.or_some]

/-- C3 (counterexample): with the one hundred tags 1.0.1-dev.1 through
1.0.1-dev.100 in the set, a Prerelease advancement of 1.0.0 moves on to
patch 2 and returns 1.0.2-dev.1: each patch of the window is probed with
counters one through one hundred only, although counter 101 at patch 1
is unused. -/
theorem C3_counterexample :
    increment ⟨(List.range 100).map (fun c => "1.0.1-dev.".data ++ natStr (c + 1)), false⟩
      ⟨1, 0, 0, none, none, []⟩ .PRERELEASE none =
      .ok ⟨1, 0, 2, some "dev.1".data, none, []⟩ ∧
    version_exists
      ⟨(List.range 100).map (fun c => "1.0.1-dev.".data ++ natStr (c + 1)), false⟩
      ⟨1, 0, 1, some "dev.101".data, none, []⟩ = false := by decide

/-- C3 (amended): for every non-pre-release input the Prerelease
advancement takes label dev when none is supplied and returns the first
unused combination of the flattened probe window of candidate patches
patch+1 through patch+5, each probed with pre-release counters 1 through
100 (the tighter of the two attempt bounds); if the whole window is
exhausted it falls back to interpolating the raw label argument
(rendering as the text None when absent) with counter 1 at the original
patch number, unchecked. -/
theorem C3_window (inc : VersionIncrementer) (v : SemanticVersion)
    (lbl : Option (List Char)) (hpre : is_prerelease v = false) :
    increment inc v .PRERELEASE lbl =
      .ok (match (((List.range 5).flatMap (fun i => (List.range 100).map (fun c =>
          (⟨v.major, v.minor, (v.patch + 1) + i,
            some (pyOrDev lbl ++ '.' :: natStr (1 + c)), v.metadata, v.pfx⟩
            : SemanticVersion)))).find? (fun c => !version_exists inc c)) with
        | some av => av
        | none => ⟨v.major, v.minor, v.patch, some (pyShowOptStr lbl ++ ".1".data),
            (if inc.preserve_metadata then v.metadata else none), v.pfx⟩) := by
  show increment_prerelease inc v lbl = _
  rw [increment_prerelease.eq_def, hpre]
  show Except.ok (create_first_prerelease inc v lbl) = _
  have hcf : create_first_prerelease inc v lbl =
      (match first_prerelease_search inc v (pyOrDev lbl) with
      | some av => av
      | none => ⟨v.major, v.minor, v.patch, some (pyShowOptStr lbl ++ ".1".data),
          (if inc.preserve_metadata then v.metadata else none), v.pfx⟩) := rfl
  rw [hcf, first_prerelease_search, first_search_aux_eq]

/-- Witness for the amended C3: against an empty set, the first probe of
the window is free, so 1.2.3 advances to 1.2.4-dev.1. -/
theorem C3_window_witness :
    increment ⟨[], false⟩ ⟨1, 2, 3, none, none, []⟩ .PRERELEASE none =
      .ok ⟨1, 2, 4, some "dev.1".data, none, []⟩ :=
  C3_window ⟨[], false⟩ ⟨1, 2, 3, none, none, []⟩ none rfl

end SemTag
